import Mathlib

/-!
Verification of the `board` crate of the chesster repository: square
indexing, bitboards, the packed piece type, the aggregate `Board`, the
square iterator and the FEN piece-placement codec
(`src/crates/board/src/{square,bitboard,piece,lib,iter,fen}.rs`).

Machine integers are modelled as `Nat`: every `u64` bitboard built by the
operations below stays strictly below `2 ^ 64` (XOR/AND/OR of such values
cannot leave the range), and the `u8` `rank`/`file` counters of the parser
stay far below `2 ^ 8` (proved where it matters), so `Nat` arithmetic agrees
with the wrapped types on all reachable states.  Panics (`assert!`,
`expect`) are modelled as `Option`/`Except` failures.
-/

namespace Chess

instance {ε α : Type} [DecidableEq ε] [DecidableEq α] : DecidableEq (Except ε α) := fun a b =>
  match a, b with
  | .ok x, .ok y => if h : x = y then isTrue (by rw [h]) else isFalse (by simp [h])
  | .error x, .error y => if h : x = y then isTrue (by rw [h]) else isFalse (by simp [h])
  | .ok _, .error _ => isFalse (by simp)
  | .error _, .ok _ => isFalse (by simp)

/-- `Square`: the 64-variant `repr(u8)` enum `A1 .. H8`, identified with its
discriminant, a raw index in `[0, 64)` (rank-major, file within rank). -/
abbrev Square := Fin 64

/-- `Square::from_raw`: the `assert!(raw < 64)` panic is modelled as `none`. -/
def Square.from_raw (raw : Nat) : Option Square :=
  if h : raw < 64 then some ⟨raw, h⟩ else none

/-- `Square::try_from_raw`: checks the range, then calls `from_raw`. -/
def Square.try_from_raw (raw : Nat) : Option Square :=
  if raw < 64 then Square.from_raw raw else none

/-- `Square::new`: 1-based rank and file; the two `assert!`s are modelled as
`none`.  In range, the raw index is `(rank-1)*8 + (file-1)`. -/
def Square.new (rank file : Nat) : Option Square :=
  if 1 ≤ rank ∧ rank ≤ 8 then
    if 1 ≤ file ∧ file ≤ 8 then
      Square.from_raw ((rank - 1) * 8 + (file - 1))
    else none
  else none

/-- `Square::bit`: `1 << raw`. -/
def Square.bit (s : Square) : Nat := 1 <<< s.val

/-- `BitBoard`: a `u64` mask; bit `i` set ⇔ square `i` is a member. -/
abbrev BitBoard := Nat

/-- `BitBoard::EMPTY`. -/
def BitBoard.EMPTY : BitBoard := 0

/-- `BitBoard::is_on`: `(self.0 & square.bit()) != 0`. -/
def BitBoard.is_on (bb : BitBoard) (s : Square) : Bool :=
  bb &&& Square.bit s != 0

/-- `BitBoard::toggle`: `self.0 ^= square.bit()` (returning the new value). -/
def BitBoard.toggle (bb : BitBoard) (s : Square) : BitBoard :=
  bb ^^^ Square.bit s

/-- `Color`, `repr(usize)` with `White = 0`, `Black = 1`. -/
inductive Color where
  | White
  | Black
deriving DecidableEq, Repr

/-- `Color as usize`. -/
def Color.idx : Color → Nat
  | White => 0
  | Black => 1

/-- `Color::ALL`. -/
def Color.ALL : List Color := [Color.White, Color.Black]

/-- `PieceKind`, `repr(usize)` with discriminants `0 .. 5`. -/
inductive PieceKind where
  | Pawn
  | Knight
  | Bishop
  | Rook
  | Queen
  | King
deriving DecidableEq, Repr

/-- `PieceKind as usize`. -/
def PieceKind.idx : PieceKind → Nat
  | Pawn => 0
  | Knight => 1
  | Bishop => 2
  | Rook => 3
  | Queen => 4
  | King => 5

/-- `PieceKind::ALL`, the fixed lookup order used by `kind_on`. -/
def PieceKind.ALL : List PieceKind :=
  [PieceKind.Pawn, PieceKind.Knight, PieceKind.Bishop,
   PieceKind.Rook, PieceKind.Queen, PieceKind.King]

/-- `Piece`: the `bitfield(u8)` struct with a 1-bit `color` field and a
7-bit `kind` field.  Both packed fields always hold in-range discriminants
(out-of-range `from_bits` would panic), so the byte is observationally the
pair of its two fields, which is how it is modelled. -/
structure Piece where
  color : Color
  kind : PieceKind
deriving DecidableEq, Repr

/-- `Piece::new()`: the all-zero byte, i.e. white pawn. -/
def Piece.new : Piece := ⟨Color.White, PieceKind.Pawn⟩

/-- `Piece::with_color`. -/
def Piece.with_color (p : Piece) (c : Color) : Piece := { p with color := c }

/-- `Piece::with_kind`. -/
def Piece.with_kind (p : Piece) (k : PieceKind) : Piece := { p with kind := k }

/-- `Piece::new_with`. -/
def Piece.new_with (c : Color) (k : PieceKind) : Piece :=
  (Piece.new.with_color c).with_kind k

/-- `Piece::is_white`. -/
def Piece.is_white (p : Piece) : Bool := p.color == Color.White

/-- `Piece::is_black`. -/
def Piece.is_black (p : Piece) : Bool := p.color == Color.Black

/-- `Piece::as_char`: lookup in `['p','n','b','r','q','k']` by kind index,
upper-cased for white. -/
def Piece.as_char (p : Piece) : Char :=
  let PIECES : List Char := ['p', 'n', 'b', 'r', 'q', 'k']
  let c := PIECES.getD (PieceKind.idx p.kind) 'p'
  if Piece.is_white p then c.toUpper else c

/-- `Board`: `pieces: [BitBoard; 6]` indexed by `PieceKind as usize` and
`colors: [BitBoard; 2]` indexed by `Color as usize`, modelled with one named
field per array slot. -/
structure Board where
  pawns : BitBoard
  knights : BitBoard
  bishops : BitBoard
  rooks : BitBoard
  queens : BitBoard
  kings : BitBoard
  white_pieces : BitBoard
  black_pieces : BitBoard
deriving DecidableEq, Repr

/-- `Board::empty()`: all bitboards `EMPTY`. -/
def Board.empty : Board :=
  ⟨BitBoard.EMPTY, BitBoard.EMPTY, BitBoard.EMPTY, BitBoard.EMPTY,
   BitBoard.EMPTY, BitBoard.EMPTY, BitBoard.EMPTY, BitBoard.EMPTY⟩

/-- `Board::pieces(kind)`: read the kind-indexed array slot. -/
def Board.pieces (b : Board) : PieceKind → BitBoard
  | .Pawn => b.pawns
  | .Knight => b.knights
  | .Bishop => b.bishops
  | .Rook => b.rooks
  | .Queen => b.queens
  | .King => b.kings

/-- `Board::colors(color)`: read the color-indexed array slot. -/
def Board.colors (b : Board) : Color → BitBoard
  | .White => b.white_pieces
  | .Black => b.black_pieces

/-- A store through `Board::pieces_mut(kind)`. -/
def Board.set_pieces (b : Board) (k : PieceKind) (v : BitBoard) : Board :=
  match k with
  | .Pawn => { b with pawns := v }
  | .Knight => { b with knights := v }
  | .Bishop => { b with bishops := v }
  | .Rook => { b with rooks := v }
  | .Queen => { b with queens := v }
  | .King => { b with kings := v }

/-- A store through `Board::colors_mut(color)`. -/
def Board.set_colors (b : Board) (c : Color) (v : BitBoard) : Board :=
  match c with
  | .White => { b with white_pieces := v }
  | .Black => { b with black_pieces := v }

/-- `Board::toggle_square`: toggle the square in the piece's kind bitboard
and then in its color bitboard. -/
def Board.toggle_square (b : Board) (p : Piece) (s : Square) : Board :=
  let b1 := b.set_pieces p.kind (BitBoard.toggle (b.pieces p.kind) s)
  b1.set_colors p.color (BitBoard.toggle (b1.colors p.color) s)

/-- `Board::whites`. -/
def Board.whites (b : Board) : BitBoard := b.colors Color.White

/-- `Board::blacks`. -/
def Board.blacks (b : Board) : BitBoard := b.colors Color.Black

/-- `Board::occupied`: `blacks | whites`. -/
def Board.occupied (b : Board) : BitBoard := Board.blacks b ||| Board.whites b

/-- `Board::kind_on`: first kind in `PieceKind::ALL` order whose bitboard
contains the square. -/
def Board.kind_on (b : Board) (s : Square) : Option PieceKind :=
  PieceKind.ALL.find? fun k => BitBoard.is_on (b.pieces k) s

/-- `Board::color_of`: first color in `Color::ALL` order whose bitboard
contains the square. -/
def Board.color_of (b : Board) (s : Square) : Option Color :=
  Color.ALL.find? fun c => BitBoard.is_on (b.colors c) s

/-- `Board::piece_on`: `kind_on?`, then color decided by the *white*
bitboard alone. -/
def Board.piece_on (b : Board) (s : Square) : Option Piece :=
  match b.kind_on s with
  | none => none
  | some kind =>
    let is_white := BitBoard.is_on (Board.whites b) s
    let color := if is_white then Color.White else Color.Black
    some ((Piece.new.with_kind kind).with_color color)

/-- `piece_on` at a raw index, `none` outside `[0, 64)` (proof-side helper). -/
def Board.piece_at (b : Board) (i : Nat) : Option Piece :=
  if h : i < 64 then b.piece_on ⟨i, h⟩ else none

/-- The square iterator state (`Iter` over a borrowed board and `IntoIter`
over an owned board have the same fields and the same code; `Board` is a
value here, so one model covers both): a cursor `pos` plus the board. -/
structure Iter where
  pos : Nat
  board : Board

/-- `Iter::new` / `IntoIter::new`. -/
def Iter.new (b : Board) : Iter := ⟨0, b⟩

/-- `Iterator::next`: the yielded item (if any) and the successor state. -/
def Iter.next (it : Iter) : Option (Option Piece) × Iter :=
  match Square.try_from_raw it.pos with
  | some square => (some (Board.piece_on it.board square), ⟨it.pos + 1, it.board⟩)
  | none => (none, it)

/-- `size_hint` / `ExactSizeIterator::len`: `(64 - pos) as usize`. -/
def Iter.len (it : Iter) : Nat := 64 - it.pos

/-- The successor state of `next`. -/
def Iter.step (it : Iter) : Iter := (Iter.next it).2

/-- `n` successive `next` calls. -/
def Iter.stepN (it : Iter) : Nat → Iter
  | 0 => it
  | n + 1 => Iter.step (Iter.stepN it n)

/-- `FEN`: a byte buffer (`Cow<[u8]>`; borrowed vs owned is irrelevant to
values, and `PartialEq` compares the bytes), holding ASCII text. -/
abbrev FEN := List Nat

/-- ASCII bytes of a character list (`str::as_bytes`). -/
def charBytes (cs : List Char) : List Nat := cs.map Char.toNat

/-- `fen::ParseError`. -/
inductive ParseError where
  | UnknownChar
  | TooLittleRankInfo
  | TooMuchRankInfo
deriving DecidableEq, Repr

/-- The byte of `Piece::as_char` (`to_fen` pushes the char; ASCII). -/
def pieceByte (p : Piece) : Nat := (Piece.as_char p).toNat

/-- The loop of `FEN::parse_board`, one recursive call per loop iteration:
`rank`/`file` counters start at 0; each iteration first computes
`raw = rank*8 + file` and `break`s (returning `Ok`) when `raw ≥ 64`; a piece
letter toggles the piece at `raw` and bumps `file`; `/` checks `file == 8`
(else errors) and moves to the next rank; a digit `1..=8` skips that many
files; anything else is `UnknownChar`.  Byte literals: `p n b r q k` are
`112 110 98 114 113 107`, `P N B R Q K` are `80 78 66 82 81 75`, `/` is
`47`, `1 .. 8` are `49 .. 56`. -/
def parseLoop : List Nat → Board → Nat → Nat → Except ParseError Board
  | [], board, _, _ => .ok board
  | byte :: it, board, rank, file =>
    let raw := rank * 8 + file
    if h : raw < 64 then
      let square : Square := ⟨raw, h⟩
      if byte = 112 then
        parseLoop it (board.toggle_square (Piece.new_with Color.Black PieceKind.Pawn) square) rank (file + 1)
      else if byte = 110 then
        parseLoop it (board.toggle_square (Piece.new_with Color.Black PieceKind.Knight) square) rank (file + 1)
      else if byte = 98 then
        parseLoop it (board.toggle_square (Piece.new_with Color.Black PieceKind.Bishop) square) rank (file + 1)
      else if byte = 114 then
        parseLoop it (board.toggle_square (Piece.new_with Color.Black PieceKind.Rook) square) rank (file + 1)
      else if byte = 113 then
        parseLoop it (board.toggle_square (Piece.new_with Color.Black PieceKind.Queen) square) rank (file + 1)
      else if byte = 107 then
        parseLoop it (board.toggle_square (Piece.new_with Color.Black PieceKind.King) square) rank (file + 1)
      else if byte = 80 then
        parseLoop it (board.toggle_square (Piece.new_with Color.White PieceKind.Pawn) square) rank (file + 1)
      else if byte = 78 then
        parseLoop it (board.toggle_square (Piece.new_with Color.White PieceKind.Knight) square) rank (file + 1)
      else if byte = 66 then
        parseLoop it (board.toggle_square (Piece.new_with Color.White PieceKind.Bishop) square) rank (file + 1)
      else if byte = 82 then
        parseLoop it (board.toggle_square (Piece.new_with Color.White PieceKind.Rook) square) rank (file + 1)
      else if byte = 81 then
        parseLoop it (board.toggle_square (Piece.new_with Color.White PieceKind.Queen) square) rank (file + 1)
      else if byte = 75 then
        parseLoop it (board.toggle_square (Piece.new_with Color.White PieceKind.King) square) rank (file + 1)
      else if byte = 47 then
        if file = 8 then parseLoop it board (rank + 1) 0
        else if file < 8 then .error ParseError.TooLittleRankInfo
        else .error ParseError.TooMuchRankInfo
      else if 49 ≤ byte ∧ byte ≤ 56 then
        parseLoop it board rank (file + (byte - 48))
      else .error ParseError.UnknownChar
    else .ok board

/-- `FEN::parse_board`: run the loop from an empty board at rank 0, file 0. -/
def FEN.parse_board (fen : FEN) : Except ParseError Board :=
  parseLoop fen Board.empty 0 0

/-- The serializer's loop state: the `file`/`rank` counters, the
`EmptyCounter` and the output string (as bytes). -/
structure FenSt where
  file : Nat
  rank : Nat
  count : Nat
  out : List Nat
deriving DecidableEq, Repr

/-- `EmptyCounter::push_if_needed`: flush a pending empty-run as one decimal
digit byte (`char::from_digit(count, 10)`; the count never exceeds 8, a full
rank, so a single digit `48 + count` is exact). -/
def pushEmpties (count : Nat) (out : List Nat) : Nat × List Nat :=
  if 0 < count then (0, out ++ [48 + count]) else (count, out)

/-- One iteration of the `to_fen` loop over one iterator item. -/
def fenStep (st : FenSt) (cell : Option Piece) : FenSt :=
  let file := st.file + 1
  let flushed :=
    match cell with
    | some p =>
      let fl := pushEmpties st.count st.out
      (fl.1, fl.2 ++ [pieceByte p])
    | none => (st.count + 1, st.out)
  if file = 8 then
    let fl := pushEmpties flushed.1 flushed.2
    let rank := st.rank + 1
    ⟨0, rank, fl.1, if rank < 8 then fl.2 ++ [47] else fl.2⟩
  else ⟨file, st.rank, flushed.1, flushed.2⟩

/-- The items yielded by the square iterator: `piece_on` over raw indices
`0 .. 63` in increasing order (established against `Iter.next` below). -/
def Board.items (b : Board) : List (Option Piece) :=
  (List.range 64).map (Board.piece_at b)

/-- `Board::to_fen`: fold the serializer loop over the 64 iterator items. -/
def Board.to_fen (b : Board) : FEN :=
  ((Board.items b).foldl fenStep ⟨0, 0, 0, []⟩).out

/-- The embedded literal of `Board::start`, trailing game-state fields
included: `rnbqkbnr/pppppppp/8/8/8/8/PPPPPPPP/RNBQKBNR w KQkq - 0 1`. -/
def START_FEN : FEN :=
  charBytes
    ['r', 'n', 'b', 'q', 'k', 'b', 'n', 'r', '/',
     'p', 'p', 'p', 'p', 'p', 'p', 'p', 'p', '/',
     '8', '/', '8', '/', '8', '/', '8', '/',
     'P', 'P', 'P', 'P', 'P', 'P', 'P', 'P', '/',
     'R', 'N', 'B', 'Q', 'K', 'B', 'N', 'R',
     ' ', 'w', ' ', 'K', 'Q', 'k', 'q', ' ', '-', ' ', '0', ' ', '1']

/-- The bare piece-placement field of the starting position,
`rnbqkbnr/pppppppp/8/8/8/8/PPPPPPPP/RNBQKBNR`. -/
def START_FIELD : FEN :=
  charBytes
    ['r', 'n', 'b', 'q', 'k', 'b', 'n', 'r', '/',
     'p', 'p', 'p', 'p', 'p', 'p', 'p', 'p', '/',
     '8', '/', '8', '/', '8', '/', '8', '/',
     'P', 'P', 'P', 'P', 'P', 'P', 'P', 'P', '/',
     'R', 'N', 'B', 'Q', 'K', 'B', 'N', 'R']

/-- `Board::start`: parse the embedded literal; the `expect` panic is
modelled by an unreachable default (`FEN.parse_board START_FEN` is proved to
return `ok` below). -/
def Board.start : Board :=
  ((FEN.parse_board START_FEN).toOption).getD Board.empty

set_option maxRecDepth 4000 in
example : (FEN.parse_board START_FEN).isOk = true := by decide

set_option maxRecDepth 4000 in
example : FEN.parse_board START_FEN = FEN.parse_board START_FIELD := by decide

set_option maxRecDepth 8000 in
example : Board.to_fen Board.start = START_FIELD := by decide

set_option maxRecDepth 4000 in
example : Board.piece_on Board.start ⟨0, by decide⟩ =
    some (Piece.new_with Color.Black PieceKind.Rook) := by decide

/-! ## Bit-level lemmas -/

theorem is_on_eq_testBit (bb : BitBoard) (s : Square) :
    BitBoard.is_on bb s = bb.testBit s.val := by
  unfold BitBoard.is_on Square.bit
  rw [Nat.shiftLeft_eq, one_mul, Nat.and_two_pow]
  cases hb : bb.testBit s.val
  · simp [hb]
  · simp only [hb, Bool.toNat_true, one_mul, bne_iff_ne, ne_eq]
    simp [(Nat.two_pow_pos s.val).ne']

theorem testBit_toggle (bb : BitBoard) (s : Square) (j : Nat) :
    (BitBoard.toggle bb s).testBit j =
      if j = s.val then !(bb.testBit j) else bb.testBit j := by
  unfold BitBoard.toggle Square.bit
  rw [Nat.shiftLeft_eq, one_mul, Nat.testBit_xor]
  by_cases h : j = s.val
  · subst h
    simp
  · have h2 : s.val ≠ j := fun hh => h hh.symm
    simp [h, Nat.testBit_two_pow_of_ne h2]

theorem is_on_toggle (bb : BitBoard) (s t : Square) :
    BitBoard.is_on (BitBoard.toggle bb s) t =
      if t = s then !(BitBoard.is_on bb t) else BitBoard.is_on bb t := by
  rw [is_on_eq_testBit, is_on_eq_testBit, testBit_toggle]
  by_cases h : t = s
  · simp [h]
  · have h2 : t.val ≠ s.val := fun hh => h (Fin.ext hh)
    simp [h, h2]

theorem is_on_lor (a b : BitBoard) (s : Square) :
    BitBoard.is_on (a ||| b) s = (BitBoard.is_on a s || BitBoard.is_on b s) := by
  simp [is_on_eq_testBit, Nat.testBit_lor]

/-! ## Board accessor lemmas -/

theorem pieces_set_pieces (b : Board) (k k' : PieceKind) (v : BitBoard) :
    (b.set_pieces k v).pieces k' = if k' = k then v else b.pieces k' := by
  cases k <;> cases k' <;> simp [Board.set_pieces, Board.pieces]

theorem pieces_set_colors (b : Board) (c : Color) (k : PieceKind) (v : BitBoard) :
    (b.set_colors c v).pieces k = b.pieces k := by
  cases c <;> cases k <;> rfl

theorem colors_set_colors (b : Board) (c c' : Color) (v : BitBoard) :
    (b.set_colors c v).colors c' = if c' = c then v else b.colors c' := by
  cases c <;> cases c' <;> simp [Board.set_colors, Board.colors]

theorem colors_set_pieces (b : Board) (k : PieceKind) (c : Color) (v : BitBoard) :
    (b.set_pieces k v).colors c = b.colors c := by
  cases k <;> cases c <;> rfl

theorem pieces_toggle_square (b : Board) (p : Piece) (s : Square) (k : PieceKind) :
    (b.toggle_square p s).pieces k =
      if k = p.kind then BitBoard.toggle (b.pieces k) s else b.pieces k := by
  unfold Board.toggle_square
  rw [pieces_set_colors, pieces_set_pieces]
  by_cases h : k = p.kind <;> simp [h]

theorem colors_toggle_square (b : Board) (p : Piece) (s : Square) (c : Color) :
    (b.toggle_square p s).colors c =
      if c = p.color then BitBoard.toggle (b.colors c) s else b.colors c := by
  unfold Board.toggle_square
  rw [colors_set_colors]
  by_cases h : c = p.color <;> simp [h, colors_set_pieces]

/-- The union of all six kind bitboards, in `PieceKind::ALL` order. -/
def Board.kindsUnion (b : Board) : BitBoard :=
  b.pieces PieceKind.Pawn ||| b.pieces PieceKind.Knight ||| b.pieces PieceKind.Bishop |||
    b.pieces PieceKind.Rook ||| b.pieces PieceKind.Queen ||| b.pieces PieceKind.King

theorem is_on_kindsUnion (b : Board) (s : Square) :
    BitBoard.is_on (Board.kindsUnion b) s =
      (BitBoard.is_on (b.pieces PieceKind.Pawn) s ||
       BitBoard.is_on (b.pieces PieceKind.Knight) s ||
       BitBoard.is_on (b.pieces PieceKind.Bishop) s ||
       BitBoard.is_on (b.pieces PieceKind.Rook) s ||
       BitBoard.is_on (b.pieces PieceKind.Queen) s ||
       BitBoard.is_on (b.pieces PieceKind.King) s) := by
  simp [Board.kindsUnion, is_on_lor]

theorem is_on_occupied (b : Board) (s : Square) :
    BitBoard.is_on (Board.occupied b) s =
      (BitBoard.is_on (b.colors Color.Black) s || BitBoard.is_on (b.colors Color.White) s) := by
  simp [Board.occupied, Board.blacks, Board.whites, is_on_lor]

/-! ## C5, C6, C7, C8 -/

/-- C5: whenever the parse loop reaches a state with `rank*8 + file ≥ 64` it
stops scanning and returns the board built so far without error, whatever
the remaining bytes are; consequently parsing the embedded `Board::start`
literal succeeds (yielding `Board.start`) even though the literal carries
the trailing fields `" w KQkq - 0 1"` after the piece-placement field. -/
theorem c5_trailing_remainder :
    (∀ (bytes : List Nat) (board : Board) (rank file : Nat),
        64 ≤ rank * 8 + file → parseLoop bytes board rank file = .ok board) ∧
    FEN.parse_board START_FEN = .ok Board.start := by
  constructor
  · intro bytes board rank file h
    cases bytes with
    | nil => rfl
    | cons byte it => simp [parseLoop, Nat.not_lt.mpr h]
  · have h : (FEN.parse_board START_FEN).isOk = true := by decide
    unfold Board.start
    cases hp : FEN.parse_board START_FEN with
    | error e => rw [hp] at h; simp [Except.isOk, Except.toBool] at h
    | ok bd => simp [hp, Except.toOption]

/-- Witness for C5 at a concrete state: with `rank = 8`, `file = 0` the loop
ignores the (unparseable) remaining byte `120` and returns the board. -/
theorem c5_trailing_remainder_witness :
    parseLoop [120] Board.empty 8 0 = .ok Board.empty :=
  c5_trailing_remainder.1 [120] Board.empty 8 0 (by decide)

/-- C6: `toggle_square` applied twice with the same piece and square restores
the board bit-for-bit, and `BitBoard::toggle` applied twice with the same
square restores the bitboard value, for all starting values. -/
theorem c6_toggle_self_inverse :
    (∀ (b : Board) (p : Piece) (s : Square),
        (b.toggle_square p s).toggle_square p s = b) ∧
    (∀ (bb : BitBoard) (s : Square),
        BitBoard.toggle (BitBoard.toggle bb s) s = bb) := by
  constructor
  · intro b p s
    cases b
    obtain ⟨c, k⟩ := p
    cases c <;> cases k <;>
      simp [Board.toggle_square, Board.set_pieces, Board.set_colors, Board.pieces,
        Board.colors, BitBoard.toggle, Nat.xor_cancel_right]
  · intro bb s
    exact Nat.xor_cancel_right _ _

/-- C7: while `rank*8 + file < 64`, a `/` byte errors with
`TooLittleRankInfo` when `file < 8` and `TooMuchRankInfo` when `file > 8`,
and on `file = 8` continues with `rank+1`, `file = 0`; any byte that is
neither a piece letter, nor `/`, nor a digit `1..8` errors with
`UnknownChar`. -/
theorem c7_parse_errors :
    ∀ (bytes : List Nat) (board : Board) (rank file : Nat), rank * 8 + file < 64 →
      (parseLoop (47 :: bytes) board rank file =
        if file = 8 then parseLoop bytes board (rank + 1) 0
        else if file < 8 then .error ParseError.TooLittleRankInfo
        else .error ParseError.TooMuchRankInfo) ∧
      (∀ byte : Nat,
        byte ∉ ([112, 110, 98, 114, 113, 107, 80, 78, 66, 82, 81, 75, 47] : List Nat) →
        ¬(49 ≤ byte ∧ byte ≤ 56) →
        parseLoop (byte :: bytes) board rank file = .error ParseError.UnknownChar) := by
  intro bytes board rank file hlt
  constructor
  · simp [parseLoop, hlt]
  · intro byte hmem hdig
    simp only [List.mem_cons, List.not_mem_nil, or_false, not_or] at hmem
    obtain ⟨h1, h2, h3, h4, h5, h6, h7, h8, h9, h10, h11, h12, h13⟩ := hmem
    simp [parseLoop, hlt, h1, h2, h3, h4, h5, h6, h7, h8, h9, h10, h11, h12, h13, hdig]

/-- Witness for C7 at a concrete state: at `rank = 0`, `file = 3`, a `/`
gives `TooLittleRankInfo` and the byte `120` (`x`) gives `UnknownChar`. -/
theorem c7_parse_errors_witness :
    parseLoop [47] Board.empty 0 3 = .error ParseError.TooLittleRankInfo ∧
    parseLoop [120] Board.empty 0 3 = .error ParseError.UnknownChar := by
  have h := c7_parse_errors [] Board.empty 0 3 (by decide)
  exact ⟨by rw [h.1]; decide, h.2 120 (by decide) (by decide)⟩

/-- C8: for rank and file in `[1, 8]`, `Square::new(rank, file)` is the
square with raw index `(rank-1)*8 + (file-1)`; `Square::new(1,1)` has raw
index 0 and `Square::new(8,8)` has raw index 63; and `Square::new` fails
(modelled as `none`) whenever either byte-sized argument is outside
`[1, 8]`, in particular at `(0,0)` and `(9,9)`. -/
theorem c8_square_new :
    (∀ rank file : Nat, 1 ≤ rank → rank ≤ 8 → 1 ≤ file → file ≤ 8 →
        ∃ s : Square, Square.new rank file = some s ∧
          s.val = (rank - 1) * 8 + (file - 1)) ∧
    (∀ rank file : Nat, rank < 256 → file < 256 →
        (¬(1 ≤ rank ∧ rank ≤ 8) ∨ ¬(1 ≤ file ∧ file ≤ 8)) →
        Square.new rank file = none) ∧
    (∃ s : Square, Square.new 1 1 = some s ∧ s.val = 0) ∧
    (∃ s : Square, Square.new 8 8 = some s ∧ s.val = 63) ∧
    Square.new 0 0 = none ∧ Square.new 9 9 = none := by
  have hmain : ∀ rank file : Nat, 1 ≤ rank → rank ≤ 8 → 1 ≤ file → file ≤ 8 →
      ∃ s : Square, Square.new rank file = some s ∧
        s.val = (rank - 1) * 8 + (file - 1) := by
    intro r f h1 h2 h3 h4
    have hrange : (r - 1) * 8 + (f - 1) < 64 := by omega
    refine ⟨⟨(r - 1) * 8 + (f - 1), hrange⟩, ?_, rfl⟩
    simp [Square.new, Square.from_raw, h1, h2, h3, h4, hrange]
  refine ⟨hmain, ?_, ?_, ?_, by decide, by decide⟩
  · intro r f _ _ h
    unfold Square.new
    rcases h with h | h
    · rw [if_neg h]
    · by_cases hr : 1 ≤ r ∧ r ≤ 8
      · rw [if_pos hr, if_neg h]
      · rw [if_neg hr]
  · exact hmain 1 1 (by decide) (by decide) (by decide) (by decide)
  · exact hmain 8 8 (by decide) (by decide) (by decide) (by decide)

/-- Witness for C8 at concrete inputs: `Square::new(3, 2)` is the square
with raw index 17, and `Square::new(3, 9)` fails. -/
theorem c8_square_new_witness :
    (∃ s : Square, Square.new 3 2 = some s ∧ s.val = 17) ∧
    Square.new 3 9 = none :=
  ⟨c8_square_new.1 3 2 (by decide) (by decide) (by decide) (by decide),
   c8_square_new.2.1 3 9 (by decide) (by decide) (Or.inr (by decide))⟩

/-! ## C9: the square iterator -/

theorem stepN_new (b : Board) : ∀ i, i ≤ 64 → Iter.stepN (Iter.new b) i = ⟨i, b⟩ := by
  intro i
  induction i with
  | zero => intro _; rfl
  | succ n ih =>
    intro h
    have hlt : n < 64 := by omega
    rw [Iter.stepN, ih (by omega)]
    unfold Iter.step Iter.next Square.try_from_raw Square.from_raw
    simp [hlt]

theorem stepN_new_ge (b : Board) : ∀ j, 64 ≤ j → Iter.stepN (Iter.new b) j = ⟨64, b⟩ := by
  have haux : ∀ k, Iter.stepN (Iter.new b) (64 + k) = ⟨64, b⟩ := by
    intro k
    induction k with
    | zero => exact stepN_new b 64 (Nat.le_refl _)
    | succ m ih =>
      have h64 : 64 + (m + 1) = (64 + m) + 1 := rfl
      rw [h64, Iter.stepN, ih]
      rfl
  intro j h
  obtain ⟨k, rfl⟩ : ∃ k, j = 64 + k := ⟨j - 64, by omega⟩
  exact haux k

/-- C9: starting from a fresh iterator over any board, the reported exact
length is 64; for each `i < 64` the `i`-th `next` call yields
`Some(piece_on(square i))` (so the 64 items appear in increasing raw-index
order) and the length drops by exactly 1; and every `next` call from the
64th state on yields no item. -/
theorem c9_iterator (b : Board) :
    Iter.len (Iter.new b) = 64 ∧
    (∀ i : Nat, i < 64 →
      (Iter.next (Iter.stepN (Iter.new b) i)).1 = some (Board.piece_at b i) ∧
      Iter.len (Iter.stepN (Iter.new b) (i + 1)) =
        Iter.len (Iter.stepN (Iter.new b) i) - 1) ∧
    (∀ j : Nat, 64 ≤ j → (Iter.next (Iter.stepN (Iter.new b) j)).1 = none) := by
  refine ⟨rfl, ?_, ?_⟩
  · intro i hi
    rw [stepN_new b i (by omega), stepN_new b (i + 1) (by omega)]
    constructor
    · unfold Iter.next Square.try_from_raw Square.from_raw Board.piece_at
      simp [hi]
    · simp only [Iter.len]
      omega
  · intro j hj
    rw [stepN_new_ge b j hj]
    rfl

/-- Witness for C9: the first item over the empty board. -/
theorem c9_iterator_witness :
    (Iter.next (Iter.stepN (Iter.new Board.empty) 0)).1 =
      some (Board.piece_at Board.empty 0) :=
  ((c9_iterator Board.empty).2.1 0 (by decide)).1

/-! ## C10: `piece_on` decides color from the white bitboard alone -/

theorem pieces_set_black (b : Board) (v : BitBoard) (k : PieceKind) :
    Board.pieces { b with black_pieces := v } k = Board.pieces b k := by
  cases k <;> rfl

/-- C10: whenever some kind bitboard contains the square, `piece_on` returns
a piece whose color is `White` exactly when the white color bitboard
contains the square and `Black` otherwise; the black color bitboard is never
consulted (changing it never changes `piece_on`); in particular a square set
in a kind bitboard but in neither color bitboard yields a *black* piece, not
`None`. -/
theorem c10_piece_on_whites_only :
    (∀ (b : Board) (s : Square) (k : PieceKind), Board.kind_on b s = some k →
      Board.piece_on b s = some (Piece.new_with
        (if BitBoard.is_on (Board.whites b) s then Color.White else Color.Black) k)) ∧
    (∀ (b : Board) (v : BitBoard) (s : Square),
      Board.piece_on { b with black_pieces := v } s = Board.piece_on b s) ∧
    Board.piece_on { Board.empty with pawns := 1 } ⟨0, by decide⟩ =
      some (Piece.new_with Color.Black PieceKind.Pawn) := by
  refine ⟨?_, ?_, by decide⟩
  · intro b s k hk
    unfold Board.piece_on
    rw [hk]
    cases hw : BitBoard.is_on (Board.whites b) s <;>
      simp [hw, Piece.new_with, Piece.new, Piece.with_kind, Piece.with_color]
  · intro b v s
    rfl

/-- Witness for C10: on the starting board, square 0 holds a rook and the
white bitboard does not contain square 0, so the piece is black. -/
theorem c10_piece_on_whites_only_witness :
    Board.piece_on Board.start ⟨0, by decide⟩ = some (Piece.new_with
      (if BitBoard.is_on (Board.whites Board.start) ⟨0, by decide⟩
       then Color.White else Color.Black) PieceKind.Rook) :=
  c10_piece_on_whites_only.1 Board.start ⟨0, by decide⟩ PieceKind.Rook
    (by set_option maxRecDepth 4000 in decide)

/-! ## C3: `piece_on` none vs `occupied` -/

/-- C3 as stated is false: on the board whose pawn bitboard is `1` and whose
color bitboards are empty (constructible in safe client code through the
public `pieces_mut`), `piece_on` at square 0 returns a piece even though
`occupied()` does not contain square 0. -/
theorem c3_counterexample :
    Board.piece_on { Board.empty with pawns := 1 } ⟨0, by decide⟩ ≠ none ∧
    BitBoard.is_on (Board.occupied { Board.empty with pawns := 1 }) ⟨0, by decide⟩
      = false := by
  decide

/-- C3 amended: for every board whose union of the six kind bitboards equals
`occupied()` (spec invariant 2, maintained by all of the crate's own
constructors) and every square `s`, `piece_on(s)` is `none` iff
`occupied().is_on(s)` is false. -/
theorem c3_piece_on_none_iff (b : Board)
    (hu : Board.kindsUnion b = Board.occupied b) (s : Square) :
    (Board.piece_on b s = none ↔
      BitBoard.is_on (Board.occupied b) s = false) := by
  have hpk : Board.piece_on b s = none ↔ Board.kind_on b s = none := by
    unfold Board.piece_on
    cases Board.kind_on b s <;> simp
  rw [hpk]
  unfold Board.kind_on
  rw [List.find?_eq_none]
  constructor
  · intro h
    have h6 : ∀ k, k ∈ PieceKind.ALL → BitBoard.is_on (Board.pieces b k) s = false := by
      intro k hkm
      simpa using h k hkm
    rw [← hu, is_on_kindsUnion]
    simp [h6 _ (by decide : PieceKind.Pawn ∈ PieceKind.ALL),
      h6 _ (by decide : PieceKind.Knight ∈ PieceKind.ALL),
      h6 _ (by decide : PieceKind.Bishop ∈ PieceKind.ALL),
      h6 _ (by decide : PieceKind.Rook ∈ PieceKind.ALL),
      h6 _ (by decide : PieceKind.Queen ∈ PieceKind.ALL),
      h6 _ (by decide : PieceKind.King ∈ PieceKind.ALL)]
  · intro h k hkm
    rw [← hu, is_on_kindsUnion] at h
    simp only [Bool.or_eq_false_iff] at h
    obtain ⟨⟨⟨⟨⟨hp, hn⟩, hb2⟩, hr⟩, hq⟩, hki⟩ := h
    simp only [PieceKind.ALL, List.mem_cons, List.not_mem_nil, or_false] at hkm
    rcases hkm with rfl | rfl | rfl | rfl | rfl | rfl <;>
      simp [hp, hn, hb2, hr, hq, hki]

/-- Witness for C3 (amended) on the empty board at square 0. -/
theorem c3_piece_on_none_iff_witness :
    (Board.piece_on Board.empty ⟨0, by decide⟩ = none ↔
      BitBoard.is_on (Board.occupied Board.empty) ⟨0, by decide⟩ = false) :=
  c3_piece_on_none_iff Board.empty (by decide) ⟨0, by decide⟩

/-! ## C2: board invariants -/

/-- Invariants 1 and 2 of the spec's data model: every square lies in at
most one kind bitboard and at most one color bitboard, and the union of the
kind bitboards equals the union of the color bitboards (`occupied`). -/
def Board.invariant (b : Board) : Prop :=
  (∀ (s : Square) (k1 k2 : PieceKind),
      BitBoard.is_on (b.pieces k1) s = true →
      BitBoard.is_on (b.pieces k2) s = true → k1 = k2) ∧
  (∀ (s : Square) (c1 c2 : Color),
      BitBoard.is_on (b.colors c1) s = true →
      BitBoard.is_on (b.colors c2) s = true → c1 = c2) ∧
  Board.kindsUnion b = Board.occupied b

/-- All bitboard bits at positions `≥ n` are clear. -/
def Board.clearFrom (b : Board) (n : Nat) : Prop :=
  ∀ j, n ≤ j →
    (∀ k, (b.pieces k).testBit j = false) ∧ (∀ c, (b.colors c).testBit j = false)

theorem testBit_pieces_toggle (b : Board) (p : Piece) (s : Square) (k : PieceKind) (j : Nat) :
    ((b.toggle_square p s).pieces k).testBit j =
      if j = s.val ∧ k = p.kind then !((b.pieces k).testBit j)
      else (b.pieces k).testBit j := by
  rw [pieces_toggle_square]
  by_cases hk : k = p.kind
  · rw [if_pos hk, testBit_toggle]
    by_cases hj : j = s.val
    · rw [if_pos hj, if_pos ⟨hj, hk⟩]
    · rw [if_neg hj, if_neg (fun hc => hj hc.1)]
  · rw [if_neg hk, if_neg (fun hc => hk hc.2)]

theorem testBit_colors_toggle (b : Board) (p : Piece) (s : Square) (c : Color) (j : Nat) :
    ((b.toggle_square p s).colors c).testBit j =
      if j = s.val ∧ c = p.color then !((b.colors c).testBit j)
      else (b.colors c).testBit j := by
  rw [colors_toggle_square]
  by_cases hc : c = p.color
  · rw [if_pos hc, testBit_toggle]
    by_cases hj : j = s.val
    · rw [if_pos hj, if_pos ⟨hj, hc⟩]
    · rw [if_neg hj, if_neg (fun hx => hj hx.1)]
  · rw [if_neg hc, if_neg (fun hx => hc hx.2)]

theorem testBit_kindsUnion (b : Board) (j : Nat) :
    (Board.kindsUnion b).testBit j =
      ((b.pieces PieceKind.Pawn).testBit j || (b.pieces PieceKind.Knight).testBit j ||
       (b.pieces PieceKind.Bishop).testBit j || (b.pieces PieceKind.Rook).testBit j ||
       (b.pieces PieceKind.Queen).testBit j || (b.pieces PieceKind.King).testBit j) := by
  simp [Board.kindsUnion, Nat.testBit_lor]

theorem testBit_occupied (b : Board) (j : Nat) :
    (Board.occupied b).testBit j =
      ((b.colors Color.Black).testBit j || (b.colors Color.White).testBit j) := by
  simp [Board.occupied, Board.blacks, Board.whites, Nat.testBit_lor]

/-- Toggling an unoccupied square preserves the board invariants
(spec §4.4's contract, specialised to an empty target square). -/
theorem invariant_toggle (b : Board) (p : Piece) (s : Square)
    (hinv : Board.invariant b)
    (hocc : BitBoard.is_on (Board.occupied b) s = false) :
    Board.invariant (b.toggle_square p s) := by
  obtain ⟨h1, h2, h3⟩ := hinv
  have hcb : ∀ c, (b.colors c).testBit s.val = false := by
    intro c
    have hx := hocc
    rw [is_on_occupied] at hx
    rcases Bool.or_eq_false_iff.mp hx with ⟨hb2, hw⟩
    rw [is_on_eq_testBit] at hb2 hw
    cases c
    · exact hw
    · exact hb2
  have hkb : ∀ k, (b.pieces k).testBit s.val = false := by
    have hku : (Board.kindsUnion b).testBit s.val = false := by
      rw [h3, testBit_occupied]
      rw [hcb Color.Black, hcb Color.White]
      rfl
    rw [testBit_kindsUnion] at hku
    simp only [Bool.or_eq_false_iff] at hku
    obtain ⟨⟨⟨⟨⟨hp, hn⟩, hbi⟩, hr⟩, hq⟩, hki⟩ := hku
    intro k
    cases k <;> assumption
  have hch : ∀ (k : PieceKind) (s' : Square),
      BitBoard.is_on ((b.toggle_square p s).pieces k) s' =
        if s'.val = s.val then decide (k = p.kind)
        else BitBoard.is_on (b.pieces k) s' := by
    intro k s'
    rw [is_on_eq_testBit, testBit_pieces_toggle]
    by_cases hj : s'.val = s.val
    · rw [if_pos hj]
      by_cases hk : k = p.kind
      · rw [if_pos ⟨hj, hk⟩, hj, hkb k]
        simp [hk]
      · rw [if_neg (fun hc => hk hc.2), hj, hkb k]
        simp [hk]
    · rw [if_neg (fun hc => hj hc.1), if_neg hj, is_on_eq_testBit]
  have hchc : ∀ (c : Color) (s' : Square),
      BitBoard.is_on ((b.toggle_square p s).colors c) s' =
        if s'.val = s.val then decide (c = p.color)
        else BitBoard.is_on (b.colors c) s' := by
    intro c s'
    rw [is_on_eq_testBit, testBit_colors_toggle]
    by_cases hj : s'.val = s.val
    · rw [if_pos hj]
      by_cases hc : c = p.color
      · rw [if_pos ⟨hj, hc⟩, hj, hcb c]
        simp [hc]
      · rw [if_neg (fun hx => hc hx.2), hj, hcb c]
        simp [hc]
    · rw [if_neg (fun hx => hj hx.1), if_neg hj, is_on_eq_testBit]
  refine ⟨?_, ?_, ?_⟩
  · intro s' k1 k2 hk1 hk2
    rw [hch] at hk1 hk2
    by_cases hj : s'.val = s.val
    · rw [if_pos hj] at hk1 hk2
      have e1 : k1 = p.kind := of_decide_eq_true hk1
      have e2 : k2 = p.kind := of_decide_eq_true hk2
      rw [e1, e2]
    · rw [if_neg hj] at hk1 hk2
      exact h1 s' k1 k2 hk1 hk2
  · intro s' c1 c2 hc1 hc2
    rw [hchc] at hc1 hc2
    by_cases hj : s'.val = s.val
    · rw [if_pos hj] at hc1 hc2
      have e1 : c1 = p.color := of_decide_eq_true hc1
      have e2 : c2 = p.color := of_decide_eq_true hc2
      rw [e1, e2]
    · rw [if_neg hj] at hc1 hc2
      exact h2 s' c1 c2 hc1 hc2
  · apply Nat.eq_of_testBit_eq
    intro j
    rw [testBit_kindsUnion, testBit_occupied]
    by_cases hj : j = s.val
    · have hpk : ((b.toggle_square p s).pieces p.kind).testBit j = true := by
        rw [testBit_pieces_toggle, if_pos ⟨hj, rfl⟩, hj, hkb p.kind]
        rfl
      have hpc : ((b.toggle_square p s).colors p.color).testBit j = true := by
        rw [testBit_colors_toggle, if_pos ⟨hj, rfl⟩, hj, hcb p.color]
        rfl
      have hl : (((b.toggle_square p s).pieces PieceKind.Pawn).testBit j ||
          ((b.toggle_square p s).pieces PieceKind.Knight).testBit j ||
          ((b.toggle_square p s).pieces PieceKind.Bishop).testBit j ||
          ((b.toggle_square p s).pieces PieceKind.Rook).testBit j ||
          ((b.toggle_square p s).pieces PieceKind.Queen).testBit j ||
          ((b.toggle_square p s).pieces PieceKind.King).testBit j) = true := by
        cases hk : p.kind <;> rw [hk] at hpk <;> simp [hpk]
      have hr : (((b.toggle_square p s).colors Color.Black).testBit j ||
          ((b.toggle_square p s).colors Color.White).testBit j) = true := by
        cases hc : p.color <;> rw [hc] at hpc <;> simp [hpc]
      rw [hl, hr]
    · have hpk : ∀ k, ((b.toggle_square p s).pieces k).testBit j = (b.pieces k).testBit j := by
        intro k
        rw [testBit_pieces_toggle, if_neg (fun hc => hj hc.1)]
      have hpc : ∀ c, ((b.toggle_square p s).colors c).testBit j = (b.colors c).testBit j := by
        intro c
        rw [testBit_colors_toggle, if_neg (fun hc => hj hc.1)]
      simp only [hpk, hpc]
      have := congrArg (fun n => Nat.testBit n j) h3
      simpa [testBit_kindsUnion, testBit_occupied] using this

theorem pieces_empty (k : PieceKind) : Board.pieces Board.empty k = 0 := by
  cases k <;> rfl

theorem colors_empty (c : Color) : Board.colors Board.empty c = 0 := by
  cases c <;> rfl

theorem invariant_empty : Board.invariant Board.empty := by
  refine ⟨?_, ?_, by decide⟩
  · intro s k1 k2 hk1 _
    rw [pieces_empty] at hk1
    simp [BitBoard.is_on] at hk1
  · intro s c1 c2 hc1 _
    rw [colors_empty] at hc1
    simp [BitBoard.is_on] at hc1

theorem clearFrom_empty (n : Nat) : Board.clearFrom Board.empty n := by
  intro j _
  constructor
  · intro k
    rw [pieces_empty]
    exact Nat.zero_testBit j
  · intro c
    rw [colors_empty]
    exact Nat.zero_testBit j

theorem clearFrom_mono (b : Board) (n m : Nat) (h : Board.clearFrom b n) (hnm : n ≤ m) :
    Board.clearFrom b m :=
  fun j hj => h j (Nat.le_trans hnm hj)

theorem clearFrom_toggle (b : Board) (p : Piece) (n : Nat) (hn : n < 64)
    (h : Board.clearFrom b n) :
    Board.clearFrom (b.toggle_square p ⟨n, hn⟩) (n + 1) := by
  intro j hj
  have hne : j ≠ (⟨n, hn⟩ : Square).val := by
    simp only [Fin.val]
    omega
  constructor
  · intro k
    rw [testBit_pieces_toggle, if_neg (fun hc => hne hc.1)]
    exact (h j (by omega)).1 k
  · intro c
    rw [testBit_colors_toggle, if_neg (fun hc => hne hc.1)]
    exact (h j (by omega)).2 c

theorem occupied_false_of_clearFrom (b : Board) (n : Nat)
    (h : Board.clearFrom b n) (s : Square) (hs : n ≤ s.val) :
    BitBoard.is_on (Board.occupied b) s = false := by
  rw [is_on_occupied]
  rw [is_on_eq_testBit, is_on_eq_testBit, (h s.val hs).2 Color.Black, (h s.val hs).2 Color.White]
  rfl

set_option maxHeartbeats 1600000 in
/-- Any successful run of the parse loop from an invariant-satisfying board
whose occupied bits all lie below the current scan position returns a board
that satisfies the invariants. -/
theorem parseLoop_invariant (bytes : List Nat) :
    ∀ (board : Board) (rank file : Nat) (bd : Board),
      Board.clearFrom board (rank * 8 + file) → Board.invariant board →
      parseLoop bytes board rank file = .ok bd → Board.invariant bd := by
  induction bytes with
  | nil =>
    intro board rank file bd _ hi h
    cases h
    exact hi
  | cons byte it ih =>
    intro board rank file bd hc hi h
    simp only [parseLoop] at h
    by_cases hraw : rank * 8 + file < 64
    · rw [dif_pos hraw] at h
      have hstep : ∀ p : Piece,
          parseLoop it (board.toggle_square p ⟨rank * 8 + file, hraw⟩) rank (file + 1) = .ok bd →
          Board.invariant bd := by
        intro p hp
        have hc1 : Board.clearFrom (board.toggle_square p ⟨rank * 8 + file, hraw⟩)
            (rank * 8 + (file + 1)) := by
          have := clearFrom_toggle board p (rank * 8 + file) hraw hc
          exact clearFrom_mono _ _ _ this (by omega)
        have hi1 : Board.invariant (board.toggle_square p ⟨rank * 8 + file, hraw⟩) :=
          invariant_toggle board p _ hi
            (occupied_false_of_clearFrom board _ hc _ (Nat.le_refl _))
        exact ih _ _ _ _ hc1 hi1 hp
      by_cases h1 : byte = 112
      · rw [if_pos h1] at h
        exact hstep _ h
      rw [if_neg h1] at h
      by_cases h2 : byte = 110
      · rw [if_pos h2] at h
        exact hstep _ h
      rw [if_neg h2] at h
      by_cases h3 : byte = 98
      · rw [if_pos h3] at h
        exact hstep _ h
      rw [if_neg h3] at h
      by_cases h4 : byte = 114
      · rw [if_pos h4] at h
        exact hstep _ h
      rw [if_neg h4] at h
      by_cases h5 : byte = 113
      · rw [if_pos h5] at h
        exact hstep _ h
      rw [if_neg h5] at h
      by_cases h6 : byte = 107
      · rw [if_pos h6] at h
        exact hstep _ h
      rw [if_neg h6] at h
      by_cases h7 : byte = 80
      · rw [if_pos h7] at h
        exact hstep _ h
      rw [if_neg h7] at h
      by_cases h8 : byte = 78
      · rw [if_pos h8] at h
        exact hstep _ h
      rw [if_neg h8] at h
      by_cases h9 : byte = 66
      · rw [if_pos h9] at h
        exact hstep _ h
      rw [if_neg h9] at h
      by_cases h10 : byte = 82
      · rw [if_pos h10] at h
        exact hstep _ h
      rw [if_neg h10] at h
      by_cases h11 : byte = 81
      · rw [if_pos h11] at h
        exact hstep _ h
      rw [if_neg h11] at h
      by_cases h12 : byte = 75
      · rw [if_pos h12] at h
        exact hstep _ h
      rw [if_neg h12] at h
      by_cases h13 : byte = 47
      · rw [if_pos h13] at h
        by_cases h14 : file = 8
        · rw [if_pos h14] at h
          exact ih _ _ _ _ (clearFrom_mono _ _ _ hc (by omega)) hi h
        · rw [if_neg h14] at h
          by_cases h15 : file < 8
          · rw [if_pos h15] at h
            exact absurd h (by simp)
          · rw [if_neg h15] at h
            exact absurd h (by simp)
      rw [if_neg h13] at h
      by_cases h16 : 49 ≤ byte ∧ byte ≤ 56
      · rw [if_pos h16] at h
        exact ih _ _ _ _ (clearFrom_mono _ _ _ hc (by omega)) hi h
      · rw [if_neg h16] at h
        exact absurd h (by simp)
    · rw [dif_neg hraw] at h
      cases h
      exact hi

/-- `FEN.parse_board START_FEN` succeeds, with `Board.start` as its value. -/
theorem start_parses_ok : FEN.parse_board START_FEN = .ok Board.start := by
  have h : (FEN.parse_board START_FEN).isOk = true := by
    set_option maxRecDepth 4000 in decide
  unfold Board.start
  cases hp : FEN.parse_board START_FEN with
  | error e => rw [hp] at h; simp [Except.isOk, Except.toBool] at h
  | ok bd => simp [hp, Except.toOption]

/-- C2: the invariants (each square in at most one kind bitboard and at most
one color bitboard; kind-union = color-union) hold for `Board::empty`, for
`Board::start`, and for every board returned by `parse_board` (a fortiori
for every well-formed piece-placement field); and `toggle_square` preserves
them whenever the target square is not already occupied. -/
theorem c2_board_invariants :
    Board.invariant Board.empty ∧
    Board.invariant Board.start ∧
    (∀ (f : FEN) (bd : Board), FEN.parse_board f = .ok bd → Board.invariant bd) ∧
    (∀ (b : Board) (p : Piece) (s : Square), Board.invariant b →
      BitBoard.is_on (Board.occupied b) s = false →
      Board.invariant (b.toggle_square p s)) := by
  have hparse : ∀ (f : FEN) (bd : Board), FEN.parse_board f = .ok bd → Board.invariant bd := by
    intro f bd h
    exact parseLoop_invariant f Board.empty 0 0 bd (clearFrom_empty 0) invariant_empty h
  exact ⟨invariant_empty, hparse START_FEN Board.start start_parses_ok, hparse,
    fun b p s hi ho => invariant_toggle b p s hi ho⟩

/-- Witness for C2: the starting board, via the parse conjunct at the
concrete embedded literal. -/
theorem c2_board_invariants_witness : Board.invariant Board.start :=
  c2_board_invariants.2.2.1 START_FEN Board.start start_parses_ok

/-! ## FEN grammar: tokens, rank-groups, fields -/

/-- A token of a FEN rank-group: a piece letter, or a gap of `d` empty
files (the digit `d`). -/
inductive Tok where
  | pc (p : Piece)
  | gap (d : Nat)
deriving DecidableEq, Repr

/-- A valid token: gaps are digits `1 .. 8`. -/
def Tok.wf : Tok → Prop
  | pc _ => True
  | gap d => 1 ≤ d ∧ d ≤ 8

instance : ∀ t : Tok, Decidable (Tok.wf t)
  | Tok.pc _ => isTrue trivial
  | Tok.gap d => inferInstanceAs (Decidable (1 ≤ d ∧ d ≤ 8))

/-- The cells a token stands for: one occupied cell, or `d` empty cells. -/
def Tok.cells : Tok → List (Option Piece)
  | pc p => [some p]
  | gap d => List.replicate d none

/-- The bytes a token renders to. -/
def Tok.bytes : Tok → List Nat
  | pc p => [pieceByte p]
  | gap d => [48 + d]

def Tok.isGap : Tok → Bool
  | pc _ => false
  | gap _ => true

def groupCells (g : List Tok) : List (Option Piece) := (g.map Tok.cells).flatten

def groupBytes (g : List Tok) : List Nat := (g.map Tok.bytes).flatten

/-- Well-formed rank-group: valid tokens whose file weights sum to 8. -/
def wfGroup (g : List Tok) : Prop := (∀ t ∈ g, Tok.wf t) ∧ (groupCells g).length = 8

/-- No two adjacent gap (digit) tokens — the canonical form that run-length
encoding produces. -/
def noAdjGaps : List Tok → Prop
  | [] => True
  | [_] => True
  | a :: b :: rest => ¬(Tok.isGap a = true ∧ Tok.isGap b = true) ∧ noAdjGaps (b :: rest)

/-- Bytes of a `/`-separated sequence of rank-groups. -/
def fieldBytes : List (List Tok) → List Nat
  | [] => []
  | [g] => groupBytes g
  | g :: gs => groupBytes g ++ 47 :: fieldBytes gs

/-- Eight well-formed rank-groups. -/
def wfFieldTokens (gs : List (List Tok)) : Prop := gs.length = 8 ∧ ∀ g ∈ gs, wfGroup g

/-- A byte sequence is a well-formed piece-placement field when it renders
eight well-formed rank-groups. -/
def wfField (f : FEN) : Prop := ∃ gs, wfFieldTokens gs ∧ f = fieldBytes gs

def fieldCells (gs : List (List Tok)) : List (Option Piece) := (gs.map groupCells).flatten

instance (g : List Tok) : Decidable (wfGroup g) := by
  unfold wfGroup
  infer_instance

instance (gs : List (List Tok)) : Decidable (wfFieldTokens gs) := by
  unfold wfFieldTokens
  infer_instance

instance noAdjGapsDec : ∀ g : List Tok, Decidable (noAdjGaps g)
  | [] => isTrue trivial
  | [_] => isTrue trivial
  | _ :: b :: rest =>
    @instDecidableAnd _ _ inferInstance (noAdjGapsDec (b :: rest))

/-- Toggle at a raw index, a no-op out of range (proof-side helper). -/
def toggleAt (b : Board) (p : Piece) (i : Nat) : Board :=
  if h : i < 64 then b.toggle_square p ⟨i, h⟩ else b

/-- Replay a cell list from a base square index: every occupied cell toggles
its piece in, every empty cell just advances. -/
def applyCells (b : Board) (base : Nat) : List (Option Piece) → Board
  | [] => b
  | none :: cs => applyCells b (base + 1) cs
  | some p :: cs => applyCells (toggleAt b p base) (base + 1) cs

/-- Replay a list of rank-groups from a starting rank. -/
def applyRanks (b : Board) (rank : Nat) : List (List Tok) → Board
  | [] => b
  | g :: gs => applyRanks (applyCells b (rank * 8) (groupCells g)) (rank + 1) gs

/-! ## Parse-loop simulation -/

theorem parseLoop_piece_step (p : Piece) (bs : List Nat) (board : Board) (rank file : Nat)
    (hraw : rank * 8 + file < 64) :
    parseLoop (pieceByte p :: bs) board rank file =
      parseLoop bs (board.toggle_square p ⟨rank * 8 + file, hraw⟩) rank (file + 1) := by
  obtain ⟨c, k⟩ := p
  cases c <;> cases k <;>
    simp +decide [pieceByte, Piece.as_char, Piece.is_white, PieceKind.idx, parseLoop, hraw,
      Piece.new_with, Piece.new, Piece.with_color, Piece.with_kind]

theorem parseLoop_gap_step (d : Nat) (hd1 : 1 ≤ d) (hd8 : d ≤ 8)
    (bs : List Nat) (board : Board) (rank file : Nat)
    (hraw : rank * 8 + file < 64) :
    parseLoop ((48 + d) :: bs) board rank file = parseLoop bs board rank (file + d) := by
  interval_cases d <;> simp +decide [parseLoop, hraw]

theorem applyCells_replicate (d : Nat) :
    ∀ (b : Board) (base : Nat) (cs : List (Option Piece)),
      applyCells b base (List.replicate d none ++ cs) = applyCells b (base + d) cs := by
  induction d with
  | zero =>
    intro b base cs
    simp [applyCells]
  | succ m ih =>
    intro b base cs
    simp only [List.replicate_succ, List.cons_append, applyCells, List.append_eq]
    rw [ih]
    have key : ∀ n1 n2 : Nat, n1 = n2 → applyCells b n1 cs = applyCells b n2 cs :=
      fun n1 n2 h => by rw [h]
    exact key _ _ (by omega)

theorem applyCells_append (c1 : List (Option Piece)) :
    ∀ (c2 : List (Option Piece)) (b : Board) (base : Nat),
      applyCells b base (c1 ++ c2) =
        applyCells (applyCells b base c1) (base + c1.length) c2 := by
  induction c1 with
  | nil =>
    intro c2 b base
    simp [applyCells]
  | cons cell rest ih =>
    intro c2 b base
    have key : ∀ (b0 : Board) (n1 n2 : Nat), n1 = n2 →
        applyCells b0 n1 c2 = applyCells b0 n2 c2 :=
      fun b0 n1 n2 h => by rw [h]
    cases cell with
    | none =>
      simp only [List.cons_append, applyCells, List.append_eq]
      rw [ih]
      exact key _ _ _ (by simp [List.length_cons]; omega)
    | some p =>
      simp only [List.cons_append, applyCells, List.append_eq]
      rw [ih]
      exact key _ _ _ (by simp [List.length_cons]; omega)

theorem parseLoop_group (g : List Tok) :
    ∀ (rest : List Nat) (board : Board) (rank file : Nat),
      (∀ t ∈ g, Tok.wf t) →
      rank * 8 + file + (groupCells g).length ≤ 64 →
      parseLoop (groupBytes g ++ rest) board rank file =
        parseLoop rest (applyCells board (rank * 8 + file) (groupCells g)) rank
          (file + (groupCells g).length) := by
  induction g with
  | nil =>
    intro rest board rank file _ _
    simp [groupBytes, groupCells, applyCells]
  | cons t g ih =>
    intro rest board rank file hwf hle
    have hwfg : ∀ t' ∈ g, Tok.wf t' := fun t' ht' => hwf t' (List.mem_cons_of_mem _ ht')
    have key : ∀ (b1 b2 : Board) (n1 n2 m1 m2 : Nat), b1 = b2 → n1 = n2 → m1 = m2 →
        parseLoop rest (applyCells b1 n1 (groupCells g)) rank m1 =
          parseLoop rest (applyCells b2 n2 (groupCells g)) rank m2 := by
      intro b1 b2 n1 n2 m1 m2 hb hn hm
      rw [hb, hn, hm]
    cases t with
    | pc p =>
      have hlen : (groupCells (Tok.pc p :: g)).length = 1 + (groupCells g).length := by
        simp [groupCells, Tok.cells]
        omega
      rw [hlen] at hle
      have hraw : rank * 8 + file < 64 := by omega
      have hbytes : groupBytes (Tok.pc p :: g) ++ rest = pieceByte p :: (groupBytes g ++ rest) := by
        simp [groupBytes, Tok.bytes]
      have hcells : groupCells (Tok.pc p :: g) = some p :: groupCells g := by
        simp [groupCells, Tok.cells]
      rw [hbytes, parseLoop_piece_step p _ _ _ _ hraw,
        ih rest _ rank (file + 1) hwfg (by omega), hcells]
      simp only [applyCells, toggleAt, dif_pos hraw, List.length_cons]
      exact key _ _ _ _ _ _ rfl (by omega) (by omega)
    | gap d =>
      obtain ⟨hd1, hd8⟩ : 1 ≤ d ∧ d ≤ 8 := hwf (Tok.gap d) (List.mem_cons_self _ _)
      have hlen : (groupCells (Tok.gap d :: g)).length = d + (groupCells g).length := by
        simp [groupCells, Tok.cells]
      rw [hlen] at hle
      have hraw : rank * 8 + file < 64 := by omega
      have hbytes : groupBytes (Tok.gap d :: g) ++ rest = (48 + d) :: (groupBytes g ++ rest) := by
        simp [groupBytes, Tok.bytes]
      have hcells : groupCells (Tok.gap d :: g) = List.replicate d none ++ groupCells g := by
        simp [groupCells, Tok.cells]
      rw [hbytes, parseLoop_gap_step d hd1 hd8 _ _ _ _ hraw,
        ih rest board rank (file + d) hwfg (by omega), hcells,
        applyCells_replicate]
      simp only [List.length_append, List.length_replicate]
      exact key _ _ _ _ _ _ rfl (by omega) (by omega)

theorem parseLoop_field (gs : List (List Tok)) :
    ∀ (rank : Nat) (board : Board),
      (∀ g ∈ gs, wfGroup g) →
      rank + gs.length ≤ 8 →
      parseLoop (fieldBytes gs) board rank 0 = .ok (applyRanks board rank gs) := by
  induction gs with
  | nil =>
    intro rank board _ _
    simp [fieldBytes, parseLoop, applyRanks]
  | cons g gs ih =>
    intro rank board hwf hr
    obtain ⟨hgt, hgl⟩ : wfGroup g := hwf g (List.mem_cons_self _ _)
    cases gs with
    | nil =>
      have hb : fieldBytes [g] = groupBytes g ++ ([] : List Nat) := by
        simp [fieldBytes]
      rw [hb, parseLoop_group g [] board rank 0 hgt
        (by rw [hgl]; simp at hr; omega)]
      simp [parseLoop, applyRanks, hgl]
    | cons g' gs' =>
      have hb : fieldBytes (g :: g' :: gs') =
          groupBytes g ++ (47 :: fieldBytes (g' :: gs')) := by
        simp [fieldBytes]
      have hr6 : rank ≤ 6 := by
        simp [List.length_cons] at hr
        omega
      rw [hb, parseLoop_group g _ board rank 0 hgt (by rw [hgl]; omega)]
      rw [hgl]
      have hraw : rank * 8 + (0 + 8) < 64 := by omega
      have hslash : parseLoop (47 :: fieldBytes (g' :: gs'))
          (applyCells board (rank * 8 + 0) (groupCells g)) rank (0 + 8) =
          parseLoop (fieldBytes (g' :: gs'))
            (applyCells board (rank * 8 + 0) (groupCells g)) (rank + 1) 0 := by
        simp +decide [parseLoop, hraw]
      rw [hslash, ih (rank + 1) _ (fun g0 hg0 => hwf g0 (List.mem_cons_of_mem _ hg0))
        (by simp [List.length_cons] at hr ⊢; omega)]
      simp [applyRanks]

theorem applyRanks_eq (gs : List (List Tok)) :
    ∀ (b : Board) (rank : Nat),
      (∀ g ∈ gs, (groupCells g).length = 8) →
      applyRanks b rank gs = applyCells b (rank * 8) (fieldCells gs) := by
  induction gs with
  | nil =>
    intro b rank _
    simp [applyRanks, fieldCells, applyCells]
  | cons g gs ih =>
    intro b rank hl
    have hg8 : (groupCells g).length = 8 := hl g (List.mem_cons_self _ _)
    have hfc : fieldCells (g :: gs) = groupCells g ++ fieldCells gs := by
      simp [fieldCells]
    rw [hfc, applyCells_append]
    simp only [applyRanks]
    rw [ih _ (rank + 1) (fun g0 h0 => hl g0 (List.mem_cons_of_mem _ h0))]
    have key : ∀ n1 n2 : Nat, n1 = n2 →
        applyCells (applyCells b (rank * 8) (groupCells g)) n1 (fieldCells gs) =
          applyCells (applyCells b (rank * 8) (groupCells g)) n2 (fieldCells gs) :=
      fun n1 n2 h => by rw [h]
    exact key _ _ (by rw [hg8]; omega)

/-- `parse_board` on a well-formed field succeeds and returns the replay of
the field's cells from the empty board. -/
theorem parse_board_field (gs : List (List Tok)) (hwf : wfFieldTokens gs) :
    FEN.parse_board (fieldBytes gs) = .ok (applyCells Board.empty 0 (fieldCells gs)) := by
  obtain ⟨hlen, hg⟩ := hwf
  unfold FEN.parse_board
  rw [parseLoop_field gs 0 Board.empty hg (by omega)]
  rw [applyRanks_eq gs Board.empty 0 (fun g hgm => (hg g hgm).2)]

/-! ## Content of a replayed board -/

def cellKind : Option Piece → Option PieceKind
  | none => none
  | some p => some p.kind

def cellColor : Option Piece → Option Color
  | none => none
  | some p => some p.color

theorem testBit_applyCells_pieces (cs : List (Option Piece)) :
    ∀ (b : Board) (base : Nat) (k : PieceKind) (j : Nat),
      base + cs.length ≤ 64 →
      (∀ j' k', base ≤ j' → (b.pieces k').testBit j' = false) →
      ((applyCells b base cs).pieces k).testBit j =
        if base ≤ j ∧ j < base + cs.length then
          decide (cellKind (cs.getD (j - base) none) = some k)
        else (b.pieces k).testBit j := by
  induction cs with
  | nil =>
    intro b base k j _ _
    rw [if_neg (by simp)]
    rfl
  | cons cell rest ih =>
    intro b base k j hle hclear
    have hlen : (cell :: rest).length = rest.length + 1 := List.length_cons _ _
    rw [hlen] at hle
    cases cell with
    | none =>
      have hstep : applyCells b base (none :: rest) = applyCells b (base + 1) rest := rfl
      rw [hstep, ih b (base + 1) k j (by omega) (fun j' k' hj' => hclear j' k' (by omega))]
      by_cases h1 : base + 1 ≤ j ∧ j < base + 1 + rest.length
      · rw [if_pos h1, if_pos (by rw [hlen]; omega)]
        have hidx : j - base = (j - (base + 1)) + 1 := by omega
        rw [hidx, List.getD_cons_succ]
      · rw [if_neg h1]
        by_cases h2 : j = base
        · subst h2
          rw [if_pos (by rw [hlen]; omega), Nat.sub_self, List.getD_cons_zero,
            hclear j k (Nat.le_refl _)]
          rfl
        · rw [if_neg (by rw [hlen]; omega)]
    | some p =>
      have hb64 : base < 64 := by omega
      have hstep : applyCells b base (some p :: rest) =
          applyCells (toggleAt b p base) (base + 1) rest := rfl
      have htog : toggleAt b p base = b.toggle_square p ⟨base, hb64⟩ := dif_pos hb64
      have hclear' : ∀ j' k', base + 1 ≤ j' →
          ((toggleAt b p base).pieces k').testBit j' = false := by
        intro j' k' hj'
        rw [htog, testBit_pieces_toggle,
          if_neg (fun hc => absurd hc.1 (show ¬(j' = base) by omega))]
        exact hclear j' k' (by omega)
      rw [hstep, ih _ (base + 1) k j (by omega) hclear']
      by_cases h1 : base + 1 ≤ j ∧ j < base + 1 + rest.length
      · rw [if_pos h1, if_pos (by rw [hlen]; omega)]
        have hidx : j - base = (j - (base + 1)) + 1 := by omega
        rw [hidx, List.getD_cons_succ]
      · rw [if_neg h1]
        by_cases h2 : j = base
        · subst h2
          rw [if_pos (by rw [hlen]; omega), Nat.sub_self, List.getD_cons_zero,
            htog, testBit_pieces_toggle]
          by_cases hk : k = p.kind
          · rw [if_pos ⟨rfl, hk⟩, hclear j k (Nat.le_refl _)]
            simp [cellKind, hk]
          · rw [if_neg (fun hc => hk hc.2), hclear j k (Nat.le_refl _)]
            simp [cellKind]
            exact fun hc => hk hc.symm
        · rw [if_neg (by rw [hlen]; omega), htog, testBit_pieces_toggle,
            if_neg (fun hc => h2 hc.1)]

theorem testBit_applyCells_colors (cs : List (Option Piece)) :
    ∀ (b : Board) (base : Nat) (c : Color) (j : Nat),
      base + cs.length ≤ 64 →
      (∀ j' c', base ≤ j' → (b.colors c').testBit j' = false) →
      ((applyCells b base cs).colors c).testBit j =
        if base ≤ j ∧ j < base + cs.length then
          decide (cellColor (cs.getD (j - base) none) = some c)
        else (b.colors c).testBit j := by
  induction cs with
  | nil =>
    intro b base c j _ _
    rw [if_neg (by simp)]
    rfl
  | cons cell rest ih =>
    intro b base c j hle hclear
    have hlen : (cell :: rest).length = rest.length + 1 := List.length_cons _ _
    rw [hlen] at hle
    cases cell with
    | none =>
      have hstep : applyCells b base (none :: rest) = applyCells b (base + 1) rest := rfl
      rw [hstep, ih b (base + 1) c j (by omega) (fun j' c' hj' => hclear j' c' (by omega))]
      by_cases h1 : base + 1 ≤ j ∧ j < base + 1 + rest.length
      · rw [if_pos h1, if_pos (by rw [hlen]; omega)]
        have hidx : j - base = (j - (base + 1)) + 1 := by omega
        rw [hidx, List.getD_cons_succ]
      · rw [if_neg h1]
        by_cases h2 : j = base
        · subst h2
          rw [if_pos (by rw [hlen]; omega), Nat.sub_self, List.getD_cons_zero,
            hclear j c (Nat.le_refl _)]
          rfl
        · rw [if_neg (by rw [hlen]; omega)]
    | some p =>
      have hb64 : base < 64 := by omega
      have hstep : applyCells b base (some p :: rest) =
          applyCells (toggleAt b p base) (base + 1) rest := rfl
      have htog : toggleAt b p base = b.toggle_square p ⟨base, hb64⟩ := dif_pos hb64
      have hclear' : ∀ j' c', base + 1 ≤ j' →
          ((toggleAt b p base).colors c').testBit j' = false := by
        intro j' c' hj'
        rw [htog, testBit_colors_toggle,
          if_neg (fun hc => absurd hc.1 (show ¬(j' = base) by omega))]
        exact hclear j' c' (by omega)
      rw [hstep, ih _ (base + 1) c j (by omega) hclear']
      by_cases h1 : base + 1 ≤ j ∧ j < base + 1 + rest.length
      · rw [if_pos h1, if_pos (by rw [hlen]; omega)]
        have hidx : j - base = (j - (base + 1)) + 1 := by omega
        rw [hidx, List.getD_cons_succ]
      · rw [if_neg h1]
        by_cases h2 : j = base
        · subst h2
          rw [if_pos (by rw [hlen]; omega), Nat.sub_self, List.getD_cons_zero,
            htog, testBit_colors_toggle]
          by_cases hc : c = p.color
          · rw [if_pos ⟨rfl, hc⟩, hclear j c (Nat.le_refl _)]
            simp [cellColor, hc]
          · rw [if_neg (fun hx => hc hx.2), hclear j c (Nat.le_refl _)]
            simp [cellColor]
            exact fun hx => hc hx.symm
        · rw [if_neg (by rw [hlen]; omega), htog, testBit_colors_toggle,
            if_neg (fun hx => h2 hx.1)]

theorem is_on_applyCells_pieces (cs : List (Option Piece)) (hlen : cs.length ≤ 64)
    (k : PieceKind) (s : Square) :
    BitBoard.is_on ((applyCells Board.empty 0 cs).pieces k) s =
      decide (cellKind (cs.getD s.val none) = some k) := by
  rw [is_on_eq_testBit,
    testBit_applyCells_pieces cs Board.empty 0 k s.val (by omega)
      (fun j' k' _ => by rw [pieces_empty]; exact Nat.zero_testBit _)]
  by_cases h : 0 ≤ s.val ∧ s.val < 0 + cs.length
  · rw [if_pos h, Nat.sub_zero]
  · rw [if_neg h, pieces_empty, List.getD_eq_default _ _ (by omega)]
    simp [Nat.zero_testBit, cellKind]

theorem is_on_applyCells_colors (cs : List (Option Piece)) (hlen : cs.length ≤ 64)
    (c : Color) (s : Square) :
    BitBoard.is_on ((applyCells Board.empty 0 cs).colors c) s =
      decide (cellColor (cs.getD s.val none) = some c) := by
  rw [is_on_eq_testBit,
    testBit_applyCells_colors cs Board.empty 0 c s.val (by omega)
      (fun j' c' _ => by rw [colors_empty]; exact Nat.zero_testBit _)]
  by_cases h : 0 ≤ s.val ∧ s.val < 0 + cs.length
  · rw [if_pos h, Nat.sub_zero]
  · rw [if_neg h, colors_empty, List.getD_eq_default _ _ (by omega)]
    simp [Nat.zero_testBit, cellColor]

theorem piece_at_applyCells (cs : List (Option Piece)) (hlen : cs.length ≤ 64)
    (i : Nat) (hi : i < 64) :
    Board.piece_at (applyCells Board.empty 0 cs) i = cs.getD i none := by
  unfold Board.piece_at
  rw [dif_pos hi]
  unfold Board.piece_on Board.kind_on
  have hk : ∀ k, BitBoard.is_on ((applyCells Board.empty 0 cs).pieces k) ⟨i, hi⟩ =
      decide (cellKind (cs.getD i none) = some k) :=
    fun k => is_on_applyCells_pieces cs hlen k ⟨i, hi⟩
  have hw : BitBoard.is_on (Board.whites (applyCells Board.empty 0 cs)) ⟨i, hi⟩ =
      decide (cellColor (cs.getD i none) = some Color.White) :=
    is_on_applyCells_colors cs hlen Color.White ⟨i, hi⟩
  cases hcell : cs.getD i none with
  | none =>
    have hfind : PieceKind.ALL.find?
        (fun k => BitBoard.is_on ((applyCells Board.empty 0 cs).pieces k) ⟨i, hi⟩) = none := by
      rw [List.find?_eq_none]
      intro k _
      rw [hk k, hcell]
      simp [cellKind]
    rw [hfind]
  | some p =>
    obtain ⟨pc, pk⟩ := p
    have hpred : ∀ k, BitBoard.is_on ((applyCells Board.empty 0 cs).pieces k) ⟨i, hi⟩ =
        decide (pk = k) := by
      intro k
      rw [hk k, hcell]
      cases pk <;> cases k <;> simp [cellKind]
    have hfind : PieceKind.ALL.find?
        (fun k => BitBoard.is_on ((applyCells Board.empty 0 cs).pieces k) ⟨i, hi⟩) =
          some pk := by
      cases pk <;> simp +decide [PieceKind.ALL, List.find?, hpred]
    rw [hfind, hw, hcell]
    cases pc <;> simp [cellColor, Piece.new, Piece.with_kind, Piece.with_color]

theorem fieldCells_length (gs : List (List Tok)) :
    (∀ g ∈ gs, (groupCells g).length = 8) → (fieldCells gs).length = 8 * gs.length := by
  induction gs with
  | nil =>
    intro _
    simp [fieldCells]
  | cons g t ih =>
    intro h8
    have hfc : fieldCells (g :: t) = groupCells g ++ fieldCells t := by
      simp [fieldCells]
    rw [hfc]
    rw [List.length_append, h8 g (List.mem_cons_self _ _),
      ih (fun g0 h0 => h8 g0 (List.mem_cons_of_mem _ h0))]
    simp [List.length_cons]
    omega

theorem fieldCells_getD (gs : List (List Tok)) :
    ∀ (r c : Nat), (∀ g ∈ gs, (groupCells g).length = 8) → r < gs.length → c < 8 →
      (fieldCells gs).getD (r * 8 + c) none = (groupCells (gs.getD r [])).getD c none := by
  induction gs with
  | nil =>
    intro r c _ hr _
    simp at hr
  | cons g t ih =>
    intro r c h8 hr hc
    have hg8 : (groupCells g).length = 8 := h8 g (List.mem_cons_self _ _)
    have hfc : fieldCells (g :: t) = groupCells g ++ fieldCells t := by
      simp [fieldCells]
    cases r with
    | zero =>
      rw [hfc]
      simp only [Nat.zero_mul, Nat.zero_add]
      rw [List.getD_append _ _ _ _ (by omega), List.getD_cons_zero]
    | succ m =>
      rw [hfc, List.getD_append_right _ _ _ _ (by rw [hg8]; omega)]
      have hidx : (m + 1) * 8 + c - (groupCells g).length = m * 8 + c := by
        rw [hg8]
        omega
      rw [hidx, List.getD_cons_succ]
      exact ih m c (fun g0 h0 => h8 g0 (List.mem_cons_of_mem _ h0))
        (by simp [List.length_cons] at hr; omega) hc

/-! ## C4: rank-placement direction -/

/-- C4: parsing places the `r`-th rank-group of the field (0-based, in
string order) at square indices `r*8 .. r*8+7` — the first group lands at
the numerically lowest rank — and parsing the canonical starting field puts
a black rook at square index 0. -/
theorem c4_rank_direction :
    (∀ (gs : List (List Tok)) (bd : Board), wfFieldTokens gs →
        FEN.parse_board (fieldBytes gs) = .ok bd →
        ∀ r c : Nat, r < 8 → c < 8 →
          Board.piece_at bd (r * 8 + c) = (groupCells (gs.getD r [])).getD c none) ∧
    Board.piece_on Board.start ⟨0, by decide⟩ =
      some (Piece.new_with Color.Black PieceKind.Rook) := by
  constructor
  · intro gs bd hwf hok r c hr hc
    have h8 : ∀ g ∈ gs, (groupCells g).length = 8 := fun g hg => (hwf.2 g hg).2
    have hlen64 : (fieldCells gs).length = 64 := by
      rw [fieldCells_length gs h8, hwf.1]
    have hbd : Except.ok (ε := ParseError) bd =
        Except.ok (applyCells Board.empty 0 (fieldCells gs)) := by
      rw [← hok, parse_board_field gs hwf]
    have hbd' : bd = applyCells Board.empty 0 (fieldCells gs) := Except.ok.inj hbd
    rw [hbd', piece_at_applyCells _ (by omega) _ (by omega)]
    exact fieldCells_getD gs r c h8 (by rw [hwf.1]; omega) hc
  · set_option maxRecDepth 4000 in decide

/-- The token form of the starting field. -/
def START_TOKENS : List (List Tok) :=
  [[Tok.pc ⟨Color.Black, PieceKind.Rook⟩, Tok.pc ⟨Color.Black, PieceKind.Knight⟩,
    Tok.pc ⟨Color.Black, PieceKind.Bishop⟩, Tok.pc ⟨Color.Black, PieceKind.Queen⟩,
    Tok.pc ⟨Color.Black, PieceKind.King⟩, Tok.pc ⟨Color.Black, PieceKind.Bishop⟩,
    Tok.pc ⟨Color.Black, PieceKind.Knight⟩, Tok.pc ⟨Color.Black, PieceKind.Rook⟩],
   [Tok.pc ⟨Color.Black, PieceKind.Pawn⟩, Tok.pc ⟨Color.Black, PieceKind.Pawn⟩,
    Tok.pc ⟨Color.Black, PieceKind.Pawn⟩, Tok.pc ⟨Color.Black, PieceKind.Pawn⟩,
    Tok.pc ⟨Color.Black, PieceKind.Pawn⟩, Tok.pc ⟨Color.Black, PieceKind.Pawn⟩,
    Tok.pc ⟨Color.Black, PieceKind.Pawn⟩, Tok.pc ⟨Color.Black, PieceKind.Pawn⟩],
   [Tok.gap 8], [Tok.gap 8], [Tok.gap 8], [Tok.gap 8],
   [Tok.pc ⟨Color.White, PieceKind.Pawn⟩, Tok.pc ⟨Color.White, PieceKind.Pawn⟩,
    Tok.pc ⟨Color.White, PieceKind.Pawn⟩, Tok.pc ⟨Color.White, PieceKind.Pawn⟩,
    Tok.pc ⟨Color.White, PieceKind.Pawn⟩, Tok.pc ⟨Color.White, PieceKind.Pawn⟩,
    Tok.pc ⟨Color.White, PieceKind.Pawn⟩, Tok.pc ⟨Color.White, PieceKind.Pawn⟩],
   [Tok.pc ⟨Color.White, PieceKind.Rook⟩, Tok.pc ⟨Color.White, PieceKind.Knight⟩,
    Tok.pc ⟨Color.White, PieceKind.Bishop⟩, Tok.pc ⟨Color.White, PieceKind.Queen⟩,
    Tok.pc ⟨Color.White, PieceKind.King⟩, Tok.pc ⟨Color.White, PieceKind.Bishop⟩,
    Tok.pc ⟨Color.White, PieceKind.Knight⟩, Tok.pc ⟨Color.White, PieceKind.Rook⟩]]

/-- The starting field, rendered from tokens, parses to `Board.start`. -/
theorem start_field_parses_ok :
    FEN.parse_board (fieldBytes START_TOKENS) = .ok Board.start := by
  have h1 : FEN.parse_board (fieldBytes START_TOKENS) = FEN.parse_board START_FEN := by
    set_option maxRecDepth 4000 in decide
  rw [h1, start_parses_ok]

/-- Witness for C4: on the parsed starting field, the square with raw index
`0*8 + 0` holds the first cell of the first rank-group. -/
theorem c4_rank_direction_witness :
    Board.piece_at Board.start (0 * 8 + 0) =
      (groupCells (START_TOKENS.getD 0 [])).getD 0 none :=
  c4_rank_direction.1 START_TOKENS Board.start (by decide) start_field_parses_ok
    0 0 (by decide) (by decide)

/-! ## Run-length encoding of a rank (what the serializer loop produces) -/

/-- Tokenize a rank's cells with `c` pending empties: pieces flush the
pending gap first; a trailing gap is flushed at the end. -/
def encodeCells : List (Option Piece) → Nat → List Tok
  | [], 0 => []
  | [], c + 1 => [Tok.gap (c + 1)]
  | none :: rest, c => encodeCells rest (c + 1)
  | some p :: rest, 0 => Tok.pc p :: encodeCells rest 0
  | some p :: rest, c + 1 => Tok.gap (c + 1) :: Tok.pc p :: encodeCells rest 0

theorem cells_encodeCells (cs : List (Option Piece)) :
    ∀ c, groupCells (encodeCells cs c) = List.replicate c none ++ cs := by
  induction cs with
  | nil =>
    intro c
    cases c with
    | zero => simp [encodeCells, groupCells]
    | succ m => simp [encodeCells, groupCells, Tok.cells]
  | cons cell rest ih =>
    intro c
    cases cell with
    | none =>
      have hstep : encodeCells (none :: rest) c = encodeCells rest (c + 1) := rfl
      rw [hstep, ih (c + 1)]
      simp [List.replicate_succ', List.append_assoc]
    | some p =>
      cases c with
      | zero =>
        have hstep : encodeCells (some p :: rest) 0 = Tok.pc p :: encodeCells rest 0 := rfl
        have hcg : groupCells (Tok.pc p :: encodeCells rest 0) =
            some p :: groupCells (encodeCells rest 0) := by
          simp [groupCells, Tok.cells]
        rw [hstep, hcg, ih 0]
        simp
      | succ m =>
        have hstep : encodeCells (some p :: rest) (m + 1) =
            Tok.gap (m + 1) :: Tok.pc p :: encodeCells rest 0 := rfl
        have hcg : groupCells (Tok.gap (m + 1) :: Tok.pc p :: encodeCells rest 0) =
            List.replicate (m + 1) none ++ (some p :: groupCells (encodeCells rest 0)) := by
          simp [groupCells, Tok.cells]
        rw [hstep, hcg, ih 0]
        simp

theorem noAdjGaps_tail (t : Tok) (g : List Tok) (h : noAdjGaps (t :: g)) : noAdjGaps g := by
  cases g with
  | nil => trivial
  | cons b rest => exact h.2

theorem encodeCells_wf (cs : List (Option Piece)) :
    ∀ c, c + cs.length ≤ 8 →
      (∀ t ∈ encodeCells cs c, Tok.wf t) ∧ noAdjGaps (encodeCells cs c) := by
  induction cs with
  | nil =>
    intro c hc
    cases c with
    | zero =>
      refine ⟨?_, trivial⟩
      intro t ht
      simp [encodeCells] at ht
    | succ m =>
      refine ⟨?_, trivial⟩
      intro t ht
      simp only [encodeCells, List.mem_cons, List.not_mem_nil, or_false] at ht
      subst ht
      exact ⟨by omega, by simp at hc; omega⟩
  | cons cell rest ih =>
    intro c hc
    rw [List.length_cons] at hc
    cases cell with
    | none => exact ih (c + 1) (by omega)
    | some p =>
      cases c with
      | zero =>
        obtain ⟨hwf0, hadj0⟩ := ih 0 (by omega)
        constructor
        · intro t ht
          rcases List.mem_cons.mp ht with rfl | hmem
          · trivial
          · exact hwf0 t hmem
        · show noAdjGaps (Tok.pc p :: encodeCells rest 0)
          cases he : encodeCells rest 0 with
          | nil => trivial
          | cons t0 ts =>
            refine ⟨?_, he ▸ hadj0⟩
            intro hcon
            simp [Tok.isGap] at hcon
      | succ m =>
        obtain ⟨hwf0, hadj0⟩ := ih 0 (by omega)
        constructor
        · intro t ht
          rcases List.mem_cons.mp ht with rfl | hmem
          · exact ⟨by omega, by omega⟩
          · rcases List.mem_cons.mp hmem with rfl | hmem2
            · trivial
            · exact hwf0 t hmem2
        · show noAdjGaps (Tok.gap (m + 1) :: Tok.pc p :: encodeCells rest 0)
          refine ⟨by simp [Tok.isGap], ?_⟩
          cases he : encodeCells rest 0 with
          | nil => trivial
          | cons t0 ts =>
            refine ⟨?_, he ▸ hadj0⟩
            intro hcon
            simp [Tok.isGap] at hcon

theorem encodeCells_replicate_append (d : Nat) :
    ∀ (rest : List (Option Piece)) (c : Nat),
      encodeCells (List.replicate d none ++ rest) c = encodeCells rest (c + d) := by
  induction d with
  | zero =>
    intro rest c
    simp
  | succ m ih =>
    intro rest c
    simp only [List.replicate_succ, List.cons_append]
    have hstep : encodeCells (none :: (List.replicate m none ++ rest)) c =
        encodeCells (List.replicate m none ++ rest) (c + 1) := rfl
    rw [hstep, ih]
    congr 1
    omega

theorem encodeCells_cells (g : List Tok) :
    (∀ t ∈ g, Tok.wf t) → noAdjGaps g → encodeCells (groupCells g) 0 = g := by
  induction g with
  | nil =>
    intro _ _
    simp [groupCells, encodeCells]
  | cons t g ih =>
    intro hwf hadj
    have hwfg : ∀ t' ∈ g, Tok.wf t' := fun t' h => hwf t' (List.mem_cons_of_mem _ h)
    have hadjg : noAdjGaps g := noAdjGaps_tail t g hadj
    cases t with
    | pc p =>
      have hcells : groupCells (Tok.pc p :: g) = some p :: groupCells g := by
        simp [groupCells, Tok.cells]
      have hstep : encodeCells (some p :: groupCells g) 0 =
          Tok.pc p :: encodeCells (groupCells g) 0 := rfl
      rw [hcells, hstep, ih hwfg hadjg]
    | gap d =>
      obtain ⟨hd1, hd8⟩ : 1 ≤ d ∧ d ≤ 8 := hwf _ (List.mem_cons_self _ _)
      have hcells : groupCells (Tok.gap d :: g) = List.replicate d none ++ groupCells g := by
        simp [groupCells, Tok.cells]
      rw [hcells, encodeCells_replicate_append]
      simp only [Nat.zero_add]
      cases g with
      | nil =>
        obtain ⟨m, rfl⟩ : ∃ m, d = m + 1 := ⟨d - 1, by omega⟩
        rfl
      | cons t' g' =>
        cases t' with
        | gap e => exact absurd ⟨rfl, rfl⟩ hadj.1
        | pc p =>
          have hcg : groupCells (Tok.pc p :: g') = some p :: groupCells g' := by
            simp [groupCells, Tok.cells]
          rw [hcg]
          obtain ⟨m, rfl⟩ : ∃ m, d = m + 1 := ⟨d - 1, by omega⟩
          have hstep : encodeCells (some p :: groupCells g') (m + 1) =
              Tok.gap (m + 1) :: Tok.pc p :: encodeCells (groupCells g') 0 := rfl
          rw [hstep]
          have hih := ih hwfg hadjg
          rw [hcg] at hih
          have hstep2 : encodeCells (some p :: groupCells g') 0 =
              Tok.pc p :: encodeCells (groupCells g') 0 := rfl
          rw [hstep2] at hih
          have htl : encodeCells (groupCells g') 0 = g' := by
            injection hih
          rw [htl]

/-! ## Serializer loop simulation -/

theorem groupBytes_cons (t : Tok) (g : List Tok) :
    groupBytes (t :: g) = Tok.bytes t ++ groupBytes g := by
  simp [groupBytes]

theorem pushEmpties_fst (c : Nat) (out : List Nat) : (pushEmpties c out).1 = 0 := by
  unfold pushEmpties
  split
  · rfl
  · simp
    omega

theorem fenStep_none (f r c : Nat) (out : List Nat) (hf : ¬(f + 1 = 8)) :
    fenStep ⟨f, r, c, out⟩ none = ⟨f + 1, r, c + 1, out⟩ := by
  simp [fenStep, hf]

theorem fenStep_some (f r c : Nat) (out : List Nat) (p : Piece) (hf : ¬(f + 1 = 8)) :
    fenStep ⟨f, r, c, out⟩ (some p) =
      ⟨f + 1, r, 0, (pushEmpties c out).2 ++ [pieceByte p]⟩ := by
  simp [fenStep, hf, pushEmpties_fst]

theorem fenStep_none_last (r c : Nat) (out : List Nat) :
    fenStep ⟨7, r, c, out⟩ none =
      ⟨0, r + 1, 0, (pushEmpties (c + 1) out).2 ++ (if r + 1 < 8 then [47] else [])⟩ := by
  simp [fenStep, pushEmpties]
  split <;> rfl

theorem fenStep_some_last (r c : Nat) (out : List Nat) (p : Piece) :
    fenStep ⟨7, r, c, out⟩ (some p) =
      ⟨0, r + 1, 0, ((pushEmpties c out).2 ++ [pieceByte p]) ++
        (if r + 1 < 8 then [47] else [])⟩ := by
  cases c with
  | zero =>
    simp [fenStep, pushEmpties]
    split <;> rfl
  | succ m =>
    simp [fenStep, pushEmpties]
    split <;> rfl

theorem foldl_fenStep_rank (cs : List (Option Piece)) :
    ∀ (f r c : Nat) (out : List Nat),
      f + cs.length = 8 → 1 ≤ cs.length →
      List.foldl fenStep ⟨f, r, c, out⟩ cs =
        ⟨0, r + 1, 0, (out ++ groupBytes (encodeCells cs c)) ++
          (if r + 1 < 8 then [47] else [])⟩ := by
  induction cs with
  | nil =>
    intro f r c out _ h1
    simp at h1
  | cons cell rest ih =>
    intro f r c out hf h1
    rw [List.length_cons] at hf
    rw [List.foldl_cons]
    cases hrest : rest with
    | nil =>
      have hf7 : f = 7 := by subst hrest; simp at hf; omega
      subst hf7
      cases cell with
      | none =>
        rw [fenStep_none_last]
        simp only [List.foldl_nil]
        have henc : encodeCells [none] c = [Tok.gap (c + 1)] := rfl
        rw [henc, groupBytes_cons]
        simp [groupBytes, Tok.bytes, pushEmpties, List.append_assoc]
      | some p =>
        rw [fenStep_some_last]
        simp only [List.foldl_nil]
        cases c with
        | zero =>
          have henc : encodeCells [some p] 0 = [Tok.pc p] := rfl
          rw [henc, groupBytes_cons]
          simp [groupBytes, Tok.bytes, pushEmpties, List.append_assoc]
        | succ m =>
          have henc : encodeCells [some p] (m + 1) = [Tok.gap (m + 1), Tok.pc p] := rfl
          rw [henc, groupBytes_cons, groupBytes_cons]
          simp [groupBytes, Tok.bytes, pushEmpties, List.append_assoc]
    | cons c2 rest2 =>
      have hlen1 : 1 ≤ rest.length := by rw [hrest]; simp
      have hf8 : ¬(f + 1 = 8) := by rw [hrest] at hf; simp [List.length_cons] at hf; omega
      rw [← hrest]
      cases cell with
      | none =>
        rw [fenStep_none _ _ _ _ hf8,
          ih (f + 1) r (c + 1) out (by omega) hlen1]
        have henc : encodeCells (none :: rest) c = encodeCells rest (c + 1) := rfl
        rw [henc]
      | some p =>
        rw [fenStep_some _ _ _ _ _ hf8,
          ih (f + 1) r 0 ((pushEmpties c out).2 ++ [pieceByte p]) (by omega) hlen1]
        cases c with
        | zero =>
          have henc : encodeCells (some p :: rest) 0 =
              Tok.pc p :: encodeCells rest 0 := rfl
          rw [henc, groupBytes_cons]
          simp [pushEmpties, Tok.bytes, List.append_assoc]
        | succ m =>
          have henc : encodeCells (some p :: rest) (m + 1) =
              Tok.gap (m + 1) :: Tok.pc p :: encodeCells rest 0 := rfl
          rw [henc, groupBytes_cons, groupBytes_cons]
          simp [pushEmpties, Tok.bytes, List.append_assoc]

/-- The bytes the serializer appends for the rows from rank `r` on. -/
def rowsBytes : List (List (Option Piece)) → Nat → List Nat
  | [], _ => []
  | row :: rest, r =>
    (groupBytes (encodeCells row 0) ++ (if r + 1 < 8 then [47] else [])) ++
      rowsBytes rest (r + 1)

theorem foldl_fenStep_rows (rows : List (List (Option Piece))) :
    ∀ (r : Nat) (out : List Nat),
      r + rows.length = 8 → (∀ row ∈ rows, row.length = 8) →
      List.foldl fenStep ⟨0, r, 0, out⟩ rows.flatten =
        ⟨0, 8, 0, out ++ rowsBytes rows r⟩ := by
  induction rows with
  | nil =>
    intro r out hr _
    simp at hr
    simp [rowsBytes, hr]
  | cons row rest ih =>
    intro r out hr hlen
    have hrow8 : row.length = 8 := hlen row (List.mem_cons_self _ _)
    rw [List.flatten_cons, List.foldl_append]
    rw [foldl_fenStep_rank row 0 r 0 out (by omega) (by omega)]
    rw [ih (r + 1) _ (by simp [List.length_cons] at hr; omega)
      (fun row0 h0 => hlen row0 (List.mem_cons_of_mem _ h0))]
    simp [rowsBytes, List.append_assoc]

theorem rowsBytes_eq_fieldBytes (rows : List (List (Option Piece))) :
    ∀ r, r + rows.length = 8 →
      rowsBytes rows r = fieldBytes (rows.map fun row => encodeCells row 0) := by
  induction rows with
  | nil =>
    intro r _
    simp [rowsBytes, fieldBytes]
  | cons row rest ih =>
    intro r hr
    cases rest with
    | nil =>
      have hr7 : r = 7 := by simp at hr; omega
      subst hr7
      simp [rowsBytes, fieldBytes]
    | cons row2 rest2 =>
      have hrlt : r + 1 < 8 := by simp [List.length_cons] at hr; omega
      have hrb : rowsBytes (row :: row2 :: rest2) r =
          (groupBytes (encodeCells row 0) ++ [47]) ++
            rowsBytes (row2 :: rest2) (r + 1) := by
        simp [rowsBytes, hrlt]
      rw [hrb, ih (r + 1) (by simp [List.length_cons] at hr ⊢; omega)]
      have hfb : fieldBytes ((row :: row2 :: rest2).map fun row => encodeCells row 0) =
          groupBytes (encodeCells row 0) ++
            47 :: fieldBytes ((row2 :: rest2).map fun row => encodeCells row 0) := by
        simp [fieldBytes]
      rw [hfb]
      simp [List.append_assoc]

/-- Ranks of a board, as the serializer consumes them. -/
def rowCells (b : Board) (r : Nat) : List (Option Piece) :=
  (List.range 8).map fun c => Board.piece_at b (r * 8 + c)

def rowsOf (b : Board) : List (List (Option Piece)) :=
  (List.range 8).map (rowCells b)

theorem items_eq_rows_flatten (b : Board) : Board.items b = (rowsOf b).flatten := rfl

theorem rowsOf_length8 (b : Board) : ∀ row ∈ rowsOf b, row.length = 8 := by
  intro row h
  simp only [rowsOf, List.mem_map] at h
  obtain ⟨r, _, rfl⟩ := h
  simp [rowCells]

/-- `to_fen` renders the run-length encoding of the board's eight ranks,
`/`-separated. -/
theorem to_fen_eq_fieldBytes (b : Board) :
    Board.to_fen b = fieldBytes ((rowsOf b).map fun row => encodeCells row 0) := by
  unfold Board.to_fen
  rw [items_eq_rows_flatten,
    foldl_fenStep_rows (rowsOf b) 0 [] (by simp [rowsOf]) (rowsOf_length8 b)]
  show rowsBytes (rowsOf b) 0 = _
  rw [rowsBytes_eq_fieldBytes (rowsOf b) 0 (by simp [rowsOf])]

/-! ## Round trip -/

theorem items_applyCells (cs : List (Option Piece)) (hlen : cs.length = 64) :
    Board.items (applyCells Board.empty 0 cs) = cs := by
  apply List.ext_getElem
  · simp [Board.items, hlen]
  · intro i h1 h2
    have hi : i < 64 := by simpa [Board.items] using h1
    simp only [Board.items, List.getElem_map, List.getElem_range]
    rw [piece_at_applyCells cs (by omega) i hi]
    exact List.getD_eq_getElem _ _ (by omega)

theorem rowsOf_applyCells (gs : List (List Tok)) (hwf : wfFieldTokens gs) :
    rowsOf (applyCells Board.empty 0 (fieldCells gs)) = gs.map groupCells := by
  obtain ⟨hlen8, hg⟩ := hwf
  have h8 : ∀ g ∈ gs, (groupCells g).length = 8 := fun g h => (hg g h).2
  have hlen64 : (fieldCells gs).length = 64 := by
    rw [fieldCells_length gs h8, hlen8]
  apply List.ext_getElem
  · simp [rowsOf, hlen8]
  · intro r h1 h2
    have hr8 : r < 8 := by simpa [rowsOf] using h1
    have hrg : r < gs.length := by rw [hlen8]; exact hr8
    simp only [rowsOf, List.getElem_map, List.getElem_range]
    apply List.ext_getElem
    · simp [rowCells]
      exact (h8 _ (List.getElem_mem _)).symm
    · intro c hc1 hc2
      have hc8 : c < 8 := by simpa [rowCells] using hc1
      simp only [rowCells, List.getElem_map, List.getElem_range]
      rw [piece_at_applyCells (fieldCells gs) (by omega) (r * 8 + c) (by omega),
        fieldCells_getD gs r c h8 hrg hc8,
        List.getD_eq_getElem gs _ hrg,
        List.getD_eq_getElem _ _ (by rw [h8 _ (List.getElem_mem _)]; exact hc8)]

theorem encoded_rows_wf (b : Board) :
    wfFieldTokens ((rowsOf b).map fun row => encodeCells row 0) := by
  constructor
  · simp [rowsOf]
  · intro g hg
    simp only [List.mem_map] at hg
    obtain ⟨row, hrow, rfl⟩ := hg
    have hrl : row.length = 8 := rowsOf_length8 b row hrow
    constructor
    · exact (encodeCells_wf row 0 (by omega)).1
    · rw [cells_encodeCells row 0]
      simpa

theorem fieldCells_encoded (b : Board) :
    fieldCells ((rowsOf b).map fun row => encodeCells row 0) = (rowsOf b).flatten := by
  unfold fieldCells
  rw [List.map_map]
  congr 1
  conv_rhs => rw [← List.map_id (rowsOf b)]
  apply List.map_congr_left
  intro row _
  simp only [Function.comp, id]
  rw [cells_encodeCells row 0]
  simp

/-- Round trip, direction A: a parse-produced board re-parses from its own
serialization to an equal board. -/
theorem parse_to_fen_dir (gs : List (List Tok)) (bd : Board)
    (hwf : wfFieldTokens gs)
    (hok : FEN.parse_board (fieldBytes gs) = .ok bd) :
    FEN.parse_board (Board.to_fen bd) = .ok bd := by
  have h8 : ∀ g ∈ gs, (groupCells g).length = 8 := fun g h => (hwf.2 g h).2
  have hlen64 : (fieldCells gs).length = 64 := by
    rw [fieldCells_length gs h8, hwf.1]
  have hbd : bd = applyCells Board.empty 0 (fieldCells gs) :=
    Except.ok.inj (by rw [← hok, parse_board_field gs hwf])
  rw [to_fen_eq_fieldBytes, parse_board_field _ (encoded_rows_wf bd)]
  congr 1
  rw [fieldCells_encoded bd, ← items_eq_rows_flatten]
  have hitems : Board.items bd = fieldCells gs := by
    rw [hbd]
    exact items_applyCells (fieldCells gs) hlen64
  rw [hitems, ← hbd]

/-- Round trip, direction B: when the field's digit runs are maximal (no
two adjacent digits in a rank-group), serializing the parsed board
reproduces the input bytes. -/
theorem to_fen_parse_dir (gs : List (List Tok)) (bd : Board)
    (hwf : wfFieldTokens gs) (hadj : ∀ g ∈ gs, noAdjGaps g)
    (hok : FEN.parse_board (fieldBytes gs) = .ok bd) :
    Board.to_fen bd = fieldBytes gs := by
  have hbd : bd = applyCells Board.empty 0 (fieldCells gs) :=
    Except.ok.inj (by rw [← hok, parse_board_field gs hwf])
  rw [to_fen_eq_fieldBytes]
  congr 1
  rw [hbd, rowsOf_applyCells gs hwf, List.map_map]
  conv_rhs => rw [← List.map_id gs]
  apply List.map_congr_left
  intro g hgm
  simp only [Function.comp, id]
  exact encodeCells_cells g (hwf.2 g hgm).1 (hadj g hgm)

/-! ## C1: the FEN round trip -/

/-- C1 as stated is false: `44/8/8/8/8/8/8/8` is well-formed under the
rank-accounting rules (each group's digits sum to 8), parses to the empty
board, but that board serializes to `8/8/8/8/8/8/8/8`, not to the input. -/
theorem c1_counterexample :
    wfField (charBytes ['4', '4', '/', '8', '/', '8', '/', '8', '/', '8', '/', '8',
      '/', '8', '/', '8']) ∧
    FEN.parse_board (charBytes ['4', '4', '/', '8', '/', '8', '/', '8', '/', '8', '/', '8',
      '/', '8', '/', '8']) = .ok Board.empty ∧
    Board.to_fen Board.empty ≠ charBytes ['4', '4', '/', '8', '/', '8', '/', '8', '/', '8',
      '/', '8', '/', '8', '/', '8'] := by
  refine ⟨⟨[[Tok.gap 4, Tok.gap 4], [Tok.gap 8], [Tok.gap 8], [Tok.gap 8], [Tok.gap 8],
    [Tok.gap 8], [Tok.gap 8], [Tok.gap 8]], by decide, by decide⟩, ?_, ?_⟩
  · set_option maxRecDepth 4000 in decide
  · set_option maxRecDepth 4000 in decide

/-- C1 amended: for every board produced by `parse_board` from a
well-formed piece-placement field, `parse_board(to_fen(board))` yields an
equal board; `to_fen(parse_board(fen))` yields the input field provided the
field's digit runs are maximal (no rank-group contains two adjacent
digits); and serializing `Board.start` yields exactly
`rnbqkbnr/pppppppp/8/8/8/8/PPPPPPPP/RNBQKBNR`. -/
theorem c1_round_trip :
    (∀ (gs : List (List Tok)) (bd : Board), wfFieldTokens gs →
        FEN.parse_board (fieldBytes gs) = .ok bd →
        FEN.parse_board (Board.to_fen bd) = .ok bd) ∧
    (∀ (gs : List (List Tok)) (bd : Board), wfFieldTokens gs →
        (∀ g ∈ gs, noAdjGaps g) →
        FEN.parse_board (fieldBytes gs) = .ok bd →
        Board.to_fen bd = fieldBytes gs) ∧
    Board.to_fen Board.start = START_FIELD := by
  refine ⟨fun gs bd hwf hok => parse_to_fen_dir gs bd hwf hok,
    fun gs bd hwf hadj hok => to_fen_parse_dir gs bd hwf hadj hok,
    by set_option maxRecDepth 8000 in decide⟩

/-- Witness for C1 at the starting field: the parsed starting board
re-parses from its serialization, and serializes back to the field. -/
theorem c1_round_trip_witness :
    FEN.parse_board (Board.to_fen Board.start) = .ok Board.start ∧
    Board.to_fen Board.start = fieldBytes START_TOKENS :=
  ⟨c1_round_trip.1 START_TOKENS Board.start (by decide) start_field_parses_ok,
   c1_round_trip.2.1 START_TOKENS Board.start (by decide) (by decide) start_field_parses_ok⟩

end Chess
